import Mathlib

/-!
Verification of the invoice-processor text pipeline
(`src/extract_fields_v3.py` and `src/detect_format.py`).

Python strings are modelled as `List Char`; `str.split('\n')` and
`'\n'.join` are modelled by `splitNl` / `joinNl`; where a CPython
`float` value only feeds an equality-insensitive context (the stored
record fields, score arithmetic) it is modelled by the exact decimal
value as a rational (`ℚ`), but the line-item tolerance test
`abs(quantity * unit_price - total) < 0.01`, whose outcome depends on
binary64 rounding, is modelled by an exact bit-level IEEE-754 double
model (`Fp64`, round to nearest, ties to even, 53-bit precision,
subnormals, overflow to infinity and `int`-to-`float` `OverflowError`);
regular expressions are compiled by hand into deterministic scanners,
with the backtracking analysis recorded in the doc comment of each
scanner.  Character classes (`\s`, `\d`, `[A-Za-z]`, case folding) are
modelled over their ASCII portion.
-/

namespace InvoiceProc

/-- Python regex `\s` (ASCII portion): space, tab, newline, carriage
return, vertical tab, form feed. -/
def isWS (c : Char) : Bool :=
  decide (c = ' ' ∨ c = '\t' ∨ c = '\n' ∨ c = '\r' ∨ c = Char.ofNat 11 ∨ c = Char.ofNat 12)

/-- The confusable-with-digit-one set `[JlI]` of `normalize_ocr_errors`. -/
def isConf (c : Char) : Bool :=
  decide (c = 'J' ∨ c = 'l' ∨ c = 'I')

/-- Python regex `\d` (ASCII digits). -/
def isDigitCh (c : Char) : Bool := c.isDigit

/-- Python regex `[a-zA-Z]`. -/
def isAlphaCh (c : Char) : Bool := c.isAlpha

/-- ASCII lower-casing, used to model `re.IGNORECASE` comparisons. -/
def lowCh (c : Char) : Char := c.toLower

/-- Tests whether `pat` is a prefix of `s` (models `str.startswith` and literal regex
text). -/
def isPre : List Char → List Char → Bool
  | [], _ => true
  | _ :: _, [] => false
  | a :: as, b :: bs => a = b && isPre as bs

/-- Case-insensitive prefix test (models literal regex text under
`re.IGNORECASE`, ASCII folding). -/
def isPreCI : List Char → List Char → Bool
  | [], _ => true
  | _ :: _, [] => false
  | a :: as, b :: bs => lowCh a = lowCh b && isPreCI as bs

/-- Tests whether `p` holds of some suffix of the string (the scan loop of
`re.search`: try each start position left to right). -/
def anyPos (p : List Char → Bool) : List Char → Bool
  | [] => p []
  | c :: rest => p (c :: rest) || anyPos p rest

/-- First-success scan over all start positions left to right
(`re.search` returning the leftmost match). -/
def scanOpt {α : Type} (f : List Char → Option α) : List Char → Option α
  | [] => f []
  | c :: rest =>
    match f (c :: rest) with
    | some r => some r
    | none => scanOpt f rest

/-- Python `pat in s` (substring containment). -/
def hasSub (pat : List Char) (s : List Char) : Bool :=
  anyPos (fun t => isPre pat t) s

/-- Numeric value of a digit list (models `int` of a `\d+` group). -/
def natOfDigits (ds : List Char) : ℕ :=
  ds.foldl (fun a c => 10 * a + (c.toNat - 48)) 0

/-- Python `str.strip()` (drop leading and trailing whitespace). -/
def dropTrailWS (l : List Char) : List Char :=
  (l.reverse.dropWhile isWS).reverse

/-- Python `str.strip()`. -/
def pyStrip (l : List Char) : List Char :=
  dropTrailWS (l.dropWhile isWS)

/-- Python `text.split('\n')`: always returns at least one piece; pieces
contain no newline. -/
def splitNl : List Char → List (List Char)
  | [] => [[]]
  | c :: rest =>
    if c = '\n' then [] :: splitNl rest
    else
      match splitNl rest with
      | [] => [[c]]
      | p :: ps => (c :: p) :: ps

/-- Python `'\n'.join(lines)`. -/
def joinNl : List (List Char) → List Char
  | [] => []
  | [p] => p
  | p :: ps => p ++ '\n' :: joinNl ps

/-! ## `normalize_ocr_errors` (extract_fields_v3.py lines 4-48)

The per-line substitution `re.sub(r'\s+([JlI])\s+\$', r' 1 $', line)` is
compiled as follows.  At a given start position the pattern matches iff
the position begins a whitespace run whose first non-whitespace
character is in `[JlI]`, followed again by a nonempty whitespace run
whose first non-whitespace character is `'$'`: the greedy `\s+` pieces
are forced to consume their full runs because backtracking would place
`[JlI]` (resp. `$`) on a whitespace character.  `re.sub` replaces the
leftmost match, emits `' 1 $'`, and resumes scanning after the match. -/

/-- Tail of the candidate pattern: `\s*` then `'$'`; returns the suffix
after the `'$'`. -/
def skipWSDollar : List Char → Option (List Char)
  | [] => none
  | c :: rest =>
    if isWS c then skipWSDollar rest
    else if c = '$' then some rest else none

/-- After the `[JlI]` letter: requires `\s+` then `'$'`. -/
def afterConf : List Char → Option (List Char)
  | [] => none
  | c :: rest => if isWS c then skipWSDollar rest else none

/-- After the first whitespace character: `\s*` then `[JlI]` then
`\s+ '$'`. -/
def afterWS : List Char → Option (List Char)
  | [] => none
  | c :: rest =>
    if isWS c then afterWS rest
    else if isConf c then afterConf rest else none

/-- Match of `\s+([JlI])\s+\$` anchored at the head of the list; on
success returns the suffix after the `'$'`. -/
def tryMatch : List Char → Option (List Char)
  | [] => none
  | c :: rest => if isWS c then afterWS rest else none

/-- Models `re.sub(r'\s+([JlI])\s+\$', r' 1 $', line)`: leftmost-choice,
non-overlapping replacement.  Fuelled by the length of the line (each
match consumes at least four characters); with fuel `0` the remainder is
returned unchanged, which the adequacy argument never reaches. -/
def subLineF : ℕ → List Char → List Char
  | 0, cs => cs
  | _ + 1, [] => []
  | f + 1, c :: rest =>
    match tryMatch (c :: rest) with
    | some r2 => ' ' :: '1' :: ' ' :: '$' :: subLineF f r2
    | none => c :: subLineF f rest

/-- Models `'O' → '0'` on a single character (`p.replace('O', '0')` is the
per-character map of `subO`). -/
def subO (c : Char) : Char := if c = 'O' then '0' else c

/-- The price-part fix of `normalize_ocr_errors`:
`parts = fixed_line.split('$'); parts[1:] = [p.replace('O','0') for p in parts[1:]]; '$'.join(parts)`.
Joining back with `'$'` means: every character strictly after the first
`'$'` has `'O'` replaced by `'0'` (the `'$'` separators themselves are
unaffected since `subO '$' = '$'`); the part before the first `'$'` is
kept as is.  When the line has no `'$'` the code's `len(parts) > 1`
guard skips the fix, i.e. the line is returned unchanged. -/
def fixPrices : List Char → List Char
  | [] => []
  | c :: rest => if c = '$' then '$' :: rest.map subO else c :: fixPrices rest

/-- Literal `"Total"`. -/
def totalLit : List Char := "Total".toList

/-- One line of `normalize_ocr_errors`: a line is a candidate item line
iff it contains `'$'` and does not start with `"Total"`; candidates get
the `[JlI] → 1` substitution followed by the price `O → 0` fix, other
lines pass through unchanged. -/
def normLine (l : List Char) : List Char :=
  if '$' ∈ l ∧ ¬ isPre totalLit l = true then fixPrices (subLineF l.length l)
  else l

/-- Function `normalize_ocr_errors` (extract_fields_v3.py lines 4-48). -/
def normalize_ocr_errors (text : List Char) : List Char :=
  joinNl ((splitNl text).map normLine)

/-! ## Data model (the dictionary built by `extract_receipt_fields_v3`) -/

/-- One row of the invoice item table. -/
structure LineItem where
  description : List Char
  quantity : ℕ
  unit_price : ℚ
  total : ℚ
deriving DecidableEq

/-- The extracted record (`data` in `extract_receipt_fields_v3`); the
nested `bill_to` dictionary is flattened into the two fields
`bill_to_name` / `bill_to_email`. -/
structure Record where
  receipt_number : Option (List Char)
  date : Option (List Char)
  bill_to_name : Option (List Char)
  bill_to_email : Option (List Char)
  items : List LineItem
  total_amount : Option ℚ
  payment_method : Option (List Char)
  ocr_corrections_applied : Bool
deriving DecidableEq

/-- The exceptions the pipeline can raise: `ValueError` (from `float()`
on a string with no digit, and from `int()` on a digit string longer
than the CPython 3.11+ default limit of 4300 digits) and
`OverflowError` (converting an integer of 2^1024 or more, after
rounding, to a float in `quantity * unit_price`). -/
inductive PyErr
  | valueError
  | overflowError
deriving DecidableEq

/-- Decidable equality of exception-carrying results, so that concrete
runs of the fallible functions can be evaluated by `decide`. -/
instance {ε α : Type} [DecidableEq ε] [DecidableEq α] :
    DecidableEq (Except ε α) := fun a b =>
  match a, b with
  | Except.error x, Except.error y =>
    if h : x = y then isTrue (h ▸ rfl)
    else isFalse (fun hc => h (Except.error.inj hc))
  | Except.ok x, Except.ok y =>
    if h : x = y then isTrue (h ▸ rfl)
    else isFalse (fun hc => h (Except.ok.inj hc))
  | Except.error _, Except.ok _ => isFalse (fun hc => Except.noConfusion hc)
  | Except.ok _, Except.error _ => isFalse (fun hc => Except.noConfusion hc)

/-! ## Scalar field matchers of `extract_receipt_fields_v3`

Each regex is compiled into a deterministic anchored matcher plus the
left-to-right scan `scanOpt` (= `re.search`).  In each matcher the
greedy `\s+` / `\s*` / `\d+` pieces are forced to take their maximal
runs: backtracking them shorter always places the next pattern element
on a character of the class just abandoned, which cannot match. -/

def receiptLit : List Char := "Receipt".toList

/-- Pattern `Receipt\s*#(\d+)` (IGNORECASE) anchored at the head; returns the
digit group. -/
def receiptAt (s : List Char) : Option (List Char) :=
  if isPreCI receiptLit s then
    match (s.drop receiptLit.length).dropWhile isWS with
    | '#' :: r3 =>
      let ds := r3.takeWhile isDigitCh
      if ds = [] then none else some ds
    | _ => none
  else none

/-- Models `re.search` of the receipt-number pattern. -/
def searchReceipt (t : List Char) : Option (List Char) :=
  scanOpt receiptAt t

/-- The month-name alternation of the date pattern, in source order. -/
def monthLits : List (List Char) :=
  ["January", "February", "March", "April", "May", "June", "July",
   "August", "September", "October", "November", "December"].map String.toList

/-- Pattern `\s+(\d{4})`: nonempty whitespace then a four-digit group (further
digits after the four are permitted; the pattern is not anchored). -/
def yearTail (s : List Char) : Option (List Char) :=
  let w := s.takeWhile isWS
  if w = [] then none else
  match s.drop w.length with
  | a :: b :: c :: d :: _ =>
    if isDigitCh a ∧ isDigitCh b ∧ isDigitCh c ∧ isDigitCh d then some [a, b, c, d]
    else none
  | _ => none

/-- Pattern `,?\s+(\d{4})`: if a comma is present it is consumed greedily; on
failure the backtracked alternative puts `\s+` on the comma, which
fails, so no fallback is needed. -/
def commaYear (s : List Char) : Option (List Char) :=
  match s with
  | ',' :: u => yearTail u
  | _ => yearTail s

/-- Pattern `(\d{1,2}),?\s+(\d{4})`: the day takes two digits greedily and
backtracks to one digit if the continuation fails. -/
def dayYear (s : List Char) : Option (List Char × List Char) :=
  match s with
  | [] => none
  | a :: rest =>
    if isDigitCh a then
      match rest with
      | [] => none
      | b :: rest2 =>
        if isDigitCh b then
          match commaYear rest2 with
          | some y => some ([a, b], y)
          | none =>
            match commaYear rest with
            | some y => some ([a], y)
            | none => none
        else
          match commaYear rest with
          | some y => some ([a], y)
          | none => none
    else none

/-- The date pattern anchored at the head: month-name alternation
(tried in source order, moving to the next alternative when the
continuation fails), then `\s+`, then day and year.  `ci` selects the
IGNORECASE variant used by `detect_invoice_format`; the extractor's
search is case-sensitive.  Returns the three groups. -/
def tryMonths (ci : Bool) : List (List Char) → List Char → Option (List Char × List Char × List Char)
  | [], _ => none
  | m :: rest, s =>
    if (if ci then isPreCI m s else isPre m s) then
      let r := s.drop m.length
      let w := r.takeWhile isWS
      if w = [] then tryMonths ci rest s
      else
        match dayYear (r.drop w.length) with
        | some (d, y) => some (m, d, y)
        | none => tryMonths ci rest s
    else tryMonths ci rest s

/-- Date pattern anchored at the head of the string. -/
def dateAt (ci : Bool) (s : List Char) : Option (List Char × List Char × List Char) :=
  tryMonths ci monthLits s

/-- Models `re.search` of the date pattern plus the reconstruction
`"{month} {day}, {year}"` stored in `data['date']`. -/
def searchDate (t : List Char) : Option (List Char) :=
  match scanOpt (fun s => dateAt false s) t with
  | some (m, d, y) => some (m ++ ' ' :: (d ++ ',' :: ' ' :: y))
  | none => none

def billLit : List Char := "Bill".toList

def toColonLit : List Char := "To:".toList

/-- Pattern `[A-Z][a-z]+`: one capital letter then a nonempty maximal lowercase
run; returns the word and the rest. -/
def wordAt : List Char → Option (List Char × List Char)
  | [] => none
  | c :: rest =>
    if c.isUpper then
      let ls := rest.takeWhile (fun d => d.isLower)
      if ls = [] then none else some (c :: ls, rest.drop ls.length)
    else none

/-- The greedy repetition `(?:\s+[A-Z][a-z]+)+` minus its first
iteration: consume `\s+ [A-Z][a-z]+` units while possible, returning
the matched text verbatim (inner whitespace included, as in the
captured group).  Fuelled by the length of the rest (every unit
consumes at least two characters). -/
def moreWordsF : ℕ → List Char → List Char
  | 0, _ => []
  | f + 1, s =>
    let w := s.takeWhile isWS
    if w = [] then []
    else
      match wordAt (s.drop w.length) with
      | some (wd, r) => w ++ wd ++ moreWordsF f r
      | none => []

/-- Pattern `Bill\s+To:\s*\n?\s*([A-Z][a-z]+(?:\s+[A-Z][a-z]+)+)` anchored at
the head (case-sensitive); returns the name group.  The middle
`\s*\n?\s*` can realize exactly the whitespace runs, and since the
group starts with `[A-Z]` the three pieces together are forced to
consume the maximal whitespace run after `To:`. -/
def nameAt (s : List Char) : Option (List Char) :=
  if isPre billLit s then
    let r := s.drop billLit.length
    let w := r.takeWhile isWS
    if w = [] then none else
    let r2 := r.drop w.length
    if isPre toColonLit r2 then
      let r3 := (r2.drop toColonLit.length).dropWhile isWS
      match wordAt r3 with
      | some (w1, r4) =>
        let ws2 := moreWordsF r4.length r4
        if ws2 = [] then none else some (w1 ++ ws2)
      | none => none
    else none
  else none

/-- Models `re.search` of the bill-to-name pattern. -/
def searchName (t : List Char) : Option (List Char) :=
  scanOpt nameAt t

/-- Email local-part class `[a-zA-Z0-9._%+-]`. -/
def isLocalChar (c : Char) : Bool :=
  c.isAlpha || c.isDigit || decide (c = '.' ∨ c = '_' ∨ c = '%' ∨ c = '+' ∨ c = '-')

/-- Email domain class `[a-zA-Z0-9.-]`. -/
def isDomChar (c : Char) : Bool :=
  c.isAlpha || c.isDigit || decide (c = '.' ∨ c = '-')

/-- Backtracking of `[a-zA-Z0-9.-]+\.[a-zA-Z]{2,}` inside the maximal
domain run `d`: the engine shrinks the greedy `[a-zA-Z0-9.-]+` from the
right, so the rightmost dot of `d` followed by at least two letters
wins.  Returns (part before the dot, the maximal letter run after the
dot, rest of `d` after that run). -/
def pickDot : List Char → Option (List Char × List Char × List Char)
  | [] => none
  | c :: rest =>
    match pickDot rest with
    | some (pre, t, post) => some (c :: pre, t, post)
    | none =>
      if c = '.' then
        let t := rest.takeWhile isAlphaCh
        if 2 ≤ t.length then some ([], t, rest.drop t.length) else none
      else none

/-- Pattern `([a-zA-Z0-9._%+-]+@[a-zA-Z0-9.-]+\.[a-zA-Z]{2,})` anchored at the
head: maximal local run (forced: `@` is not a local character), the
`@`, then the domain resolved by `pickDot` (the part before the chosen
dot must be nonempty).  Returns the match and the rest of the string
after it. -/
def emailAt (cs : List Char) : Option (List Char × List Char) :=
  let l := cs.takeWhile isLocalChar
  if l = [] then none else
  match cs.drop l.length with
  | '@' :: rest =>
    let d := rest.takeWhile isDomChar
    match pickDot d with
    | some (pre, t, post) =>
      if pre = [] then none
      else some (l ++ '@' :: (pre ++ '.' :: t), post ++ rest.drop d.length)
    | none => none
  | _ => none

/-- Models `re.findall` of the email pattern: scan left to right, emit each
leftmost match and resume after it.  Fuelled by the length of the text
(every step consumes at least one character). -/
def findEmailsF : ℕ → List Char → List (List Char)
  | 0, _ => []
  | _ + 1, [] => []
  | f + 1, c :: rest =>
    match emailAt (c :: rest) with
    | some (m, post) => m :: findEmailsF f post
    | none => findEmailsF f rest

/-- Models `re.findall(email_pattern, text)`. -/
def findEmails (t : List Char) : List (List Char) :=
  findEmailsF t.length t

def inquireLit : List Char := "inquire".toList

/-- The selection loop over `email_matches`: the first match that does
not start with `"inquire"` is stored (the loop breaks there). -/
def firstGoodEmail : List (List Char) → Option (List Char)
  | [] => none
  | m :: rest => if isPre inquireLit m then firstGoodEmail rest else some m

def amountColonLit : List Char := "Amount:".toList

/-- Pattern `Total\s+Amount:\s*\$?([\d,]+\.?\d*)` (IGNORECASE) anchored at the
head; returns the numeric group verbatim. -/
def totalAmtAt (s : List Char) : Option (List Char) :=
  if isPreCI totalLit s then
    let r := s.drop totalLit.length
    let w := r.takeWhile isWS
    if w = [] then none else
    let r2 := r.drop w.length
    if isPreCI amountColonLit r2 then
      let r3 := (r2.drop amountColonLit.length).dropWhile isWS
      let r4 := match r3 with | '$' :: u => u | _ => r3
      let g1 := r4.takeWhile (fun c => isDigitCh c || decide (c = ','))
      if g1 = [] then none
      else
        match r4.drop g1.length with
        | '.' :: u => some (g1 ++ '.' :: u.takeWhile isDigitCh)
        | _ => some g1
    else none
  else none

/-- Models `re.search` of the total-amount pattern; the group still contains
its commas and optional dot. -/
def searchTotalGroup (t : List Char) : Option (List Char) :=
  scanOpt totalAmtAt t

/-- Models `amount_str.replace(',', '')`. -/
def stripCommas (g : List Char) : List Char :=
  g.filter (fun c => decide (c ≠ ','))

/-- CPython `float()` on a decimal string of the shape `\d* \.? \d*`
(the only shape reachable from the comma-stripped total group): it
succeeds iff the string holds at least one digit, else raises
`ValueError` (here: `none`).  The numeric value is modelled exactly as
a rational. -/
def pyFloatDec (cs : List Char) : Option ℚ :=
  let ip := cs.takeWhile isDigitCh
  match cs.drop ip.length with
  | [] => if ip = [] then none else some (natOfDigits ip)
  | '.' :: fr =>
    let fd := fr.takeWhile isDigitCh
    if fr.drop fd.length = [] then
      if ip = [] ∧ fd = [] then none
      else some ((natOfDigits ip : ℚ) + (natOfDigits fd : ℚ) / 10 ^ fd.length)
    else none
  | _ => none

def paymentLit : List Char := "Payment".toList

def methodColonLit : List Char := "Method:".toList

/-- Pattern `Payment\s+Method:\s*([^\n]+)` (IGNORECASE) anchored at the head.
If any text follows the whitespace after `Method:`, the group is the
rest of that line.  If only whitespace remains to the end of the text,
the greedy `\s*` backtracks and `[^\n]+` matches the last non-newline
whitespace character, if there is one. -/
def paymentAt (s : List Char) : Option (List Char) :=
  if isPreCI paymentLit s then
    let r := s.drop paymentLit.length
    let w := r.takeWhile isWS
    if w = [] then none else
    let r2 := r.drop w.length
    if isPreCI methodColonLit r2 then
      let r3 := r2.drop methodColonLit.length
      let w2 := r3.takeWhile isWS
      match r3.drop w2.length with
      | c :: rest => some (c :: rest.takeWhile (fun d => decide (d ≠ '\n')))
      | [] =>
        match w2.reverse.dropWhile (fun d => decide (d = '\n')) with
        | c :: _ => some [c]
        | [] => none
    else none
  else none

/-- Models `re.search` of the payment-method pattern. -/
def searchPayment (t : List Char) : Option (List Char) :=
  scanOpt paymentAt t

/-! ## `extract_line_items` (extract_fields_v3.py lines 146-206) -/

def headerDescLit : List Char := "Item Description".toList

def headerQtyLit : List Char := "Quantity".toList

def totalColonLit : List Char := "Total Amount:".toList

/-- The boundary loop: remembers `i + 1` for every line containing both
`"Item Description"` and `"Quantity"` (the last one before the break
wins) and breaks with `table_end = i` at the first line containing
`"Total Amount:"`. -/
def scanBounds : List (List Char) → ℕ → Option ℕ → Option ℕ × Option ℕ
  | [], _, ts => (ts, none)
  | l :: rest, i, ts =>
    let ts' := if hasSub headerDescLit l && hasSub headerQtyLit l then some (i + 1) else ts
    if hasSub totalColonLit l then (ts', some i)
    else scanBounds rest (i + 1) ts'

/-- The lines visited by `range(table_start, table_end if table_end != -1 else len(lines))`;
empty when no header line was found. -/
def tableLines (text : List Char) : List (List Char) :=
  let lines := splitNl text
  match scanBounds lines 0 none with
  | (none, _) => []
  | (some ts, teOpt) => (lines.take (teOpt.getD lines.length)).drop ts

/-- Value of a `\d+\.\d{2}` money group as the exact decimal rational
(units, cents).  The stored `unit_price` and `total` fields are
modelled by this value; the CPython double stored by `float()` is its
`fpOfCents` rounding, within half an ulp of it and of equal sign, and
no claim inspects the stored fields more finely than that.  The
tolerance test, where rounding is observable, is computed on the
doubles (`fpTolOk`). -/
def moneyQ (p : ℕ × ℕ) : ℚ :=
  (p.1 : ℚ) + (p.2 : ℚ) / 100

/-! ### IEEE-754 binary64 model

CPython floats are IEEE-754 binary64 values.  `Fp64` represents a
nonnegative double (sign never matters below: money groups and
quantities are nonnegative, and `abs` of the difference is taken before
the only comparison) as an exact value `m * 2 ^ e` with `m < 2 ^ 53`,
plus infinity and NaN.  `fpRound p q` rounds the exact rational `p / q`
(`q > 0`) to the nearest representable double, ties to even — the IEEE
semantics of every CPython operation modelled here: decimal-literal
parsing (`fpOfCents`), `int`-to-`float` conversion, `*` on doubles, and
`abs(x - y)` (subtraction is sign-symmetric under round-to-nearest, so
rounding `|a - b|` equals the absolute value of the rounded
difference). -/

/-- Model of a nonnegative IEEE-754 binary64 value: a finite number
`m * 2 ^ e` (`m` need not be normalized; `fpRound` always returns
`m < 2 ^ 53` and `e ≥ -1074`), positive infinity, or NaN. -/
inductive Fp64
  | finite (m : ℕ) (e : ℤ)
  | inf
  | nan
deriving DecidableEq

/-- Fueled power of two by binary splitting (square the half power,
times 2 when the exponent is odd), so that concrete values reduce in
logarithmic depth; `pw2_eq` below proves `pw2F f n = 2 ^ n` whenever
the fuel covers the exponent. -/
def pw2F : ℕ → ℕ → ℕ
  | 0, _ => 1
  | f + 1, n =>
    if n = 0 then 1
    else
      let h := pw2F f (n / 2)
      if n % 2 = 0 then h * h else 2 * (h * h)

/-- Function computing `2 ^ n` in logarithmic depth: `pw2F` with fuel
`n`, always sufficient since the recursion halves the exponent. -/
def pw2 (n : ℕ) : ℕ := pw2F n n

/-- Binary-search floor base-2 logarithm: descend from bit `j - 1` of
the result, adding each power of two whose inclusion keeps `2 ^ k ≤ n`;
`log2B_spec` below proves the greedy invariant.  Depth is `j`, against
the linear depth of `Nat.log2`'s halving recursion. -/
def log2B : ℕ → ℕ → ℕ → ℕ
  | 0, _, k => k
  | j + 1, n, k => if pw2 (k + pw2 j) ≤ n then log2B j n (k + pw2 j) else log2B j n k

/-- Function computing `⌊log2 n⌋` (and 0 at 0) for every `n` below
`2 ^ 16384` — covering all values reaching it here, which stay below
`2 ^ 15500` because `int()` caps the quantity at 4300 digits;
`floorLog2_eq` below proves agreement with `Nat.log2` on that range. -/
def floorLog2 (n : ℕ) : ℕ := log2B 14 n 0

/-- Function rounding the exact nonnegative rational `p / q` to binary64,
round to nearest with ties to even.  The target exponent `k` is
`⌊log2 (p/q)⌋`, computed by scaling `p` by `2 ^ 1200` (exact whenever
`p / q ≥ 2 ^ -1200`; any smaller value is subnormal and the clamp
`e ≥ -1074` makes the mis-estimate harmless).  The mantissa is the
rounding of `(p / q) * 2 ^ -e` with `e = max (k - 52) (-1074)`; a
carry to `2 ^ 53` renormalizes, and a result of `2 ^ 1024` or more
overflows to infinity (compared after scaling both sides by
`2 ^ 1074`). -/
def fpRound (p q : ℕ) : Fp64 :=
  if p = 0 then Fp64.finite 0 0
  else
    let k : ℤ := (floorLog2 (p * pw2 1200 / q) : ℤ) - 1200
    let e : ℤ := max (k - 52) (-1074)
    let num := p * pw2 (-e).toNat
    let den := q * pw2 e.toNat
    let m0 := num / den
    let r := num % den
    let m1 := if 2 * r < den then m0
              else if den < 2 * r then m0 + 1
              else if m0 % 2 = 0 then m0 else m0 + 1
    let m2 := if m1 = pw2 53 then pw2 52 else m1
    let e2 := if m1 = pw2 53 then e + 1 else e
    if pw2 2098 ≤ m2 * pw2 (e2 + 1074).toNat then Fp64.inf else Fp64.finite m2 e2

/-- Model of CPython `int`-to-`float` conversion (evaluating
`quantity * unit_price` first converts the int): `OverflowError` when
the rounded value reaches `2 ^ 1024` (the boundary integer is
`2 ^ 1024 - 2 ^ 970`: one more already rounds up to `2 ^ 1024` by
ties-to-even). -/
def intToFp (n : ℕ) : Except PyErr Fp64 :=
  match fpRound n 1 with
  | Fp64.inf => Except.error PyErr.overflowError
  | f => Except.ok f

/-- Model of `float()` on a matched money group `d+.dd`: the binary64
rounding of the exact decimal value.  The group always holds a digit,
and a huge literal becomes infinity without raising, so this conversion
never raises. -/
def fpOfCents (p : ℕ × ℕ) : Fp64 := fpRound (100 * p.1 + p.2) 100

/-- Model of binary64 multiplication on nonnegative values:
`0 * inf = nan`, otherwise the rounding of the exact product. -/
def mulFp : Fp64 → Fp64 → Fp64
  | Fp64.nan, _ => Fp64.nan
  | _, Fp64.nan => Fp64.nan
  | Fp64.inf, Fp64.inf => Fp64.inf
  | Fp64.inf, Fp64.finite m _ => if m = 0 then Fp64.nan else Fp64.inf
  | Fp64.finite m _, Fp64.inf => if m = 0 then Fp64.nan else Fp64.inf
  | Fp64.finite m1 e1, Fp64.finite m2 e2 =>
    fpRound (m1 * m2 * pw2 (e1 + e2).toNat) (pw2 (-(e1 + e2)).toNat)

/-- Model of `abs(x - y)` on nonnegative doubles: `inf - inf = nan`
(here only one operand can be infinite, the other being a finite money
value, so the `inf`/`inf` arm returning `inf` is unreachable but
harmless); finite operands are compared exactly after scaling by
`2 ^ 1074` and the nonnegative difference is rounded — correct because
round-to-nearest-even is symmetric in sign, so
`round(x - y)` and `abs` commute. -/
def absSubFp : Fp64 → Fp64 → Fp64
  | Fp64.nan, _ => Fp64.nan
  | _, Fp64.nan => Fp64.nan
  | Fp64.inf, _ => Fp64.inf
  | _, Fp64.inf => Fp64.inf
  | Fp64.finite m1 e1, Fp64.finite m2 e2 =>
    let a := m1 * pw2 (e1 + 1074).toNat
    let b := m2 * pw2 (e2 + 1074).toNat
    fpRound (if a ≤ b then b - a else a - b) (pw2 1074)

/-- Tests whether a double is strictly below another, false whenever
either side is NaN or the left side is infinite — exactly CPython `<`
on the values that reach the tolerance comparison (the right side is
the finite constant 0.01). -/
def fpLtFinite : Fp64 → Fp64 → Bool
  | Fp64.finite m1 e1, Fp64.finite m2 e2 =>
    decide (m1 * pw2 (e1 + 1074).toNat < m2 * pw2 (e2 + 1074).toNat)
  | _, _ => false

/-- The double value of the literal `0.01`
(`5764607523034235 * 2 ^ -59`, slightly above 1/100). -/
def d01 : Fp64 := fpRound 1 100

/-- Tests `abs(quantity * unit_price - total) < 0.01` in binary64
arithmetic: `qf` is the converted quantity, `m1`/`m2` the money
groups parsed by `float()`. -/
def fpTolOk (qf : Fp64) (m1 m2 : ℕ × ℕ) : Bool :=
  fpLtFinite (absSubFp (mulFp qf (fpOfCents m1)) (fpOfCents m2)) d01

/-- Default CPython 3.11+ limit on the digit count accepted by `int()`
(`sys.int_info.default_max_str_digits`); a longer digit string makes
`int()` raise `ValueError` before any conversion. -/
def intMaxStrDigits : ℕ := 4300

/-- Pattern `\d+\.\d{2}`: maximal digit run (forced: the next element is the
literal dot), the dot, then exactly two digits.  Returns (units, cents)
and the rest. -/
def parseMoney (s : List Char) : Option ((ℕ × ℕ) × List Char) :=
  let d := s.takeWhile isDigitCh
  if d = [] then none else
  match s.drop d.length with
  | '.' :: a :: b :: r3 =>
    if isDigitCh a ∧ isDigitCh b then some ((natOfDigits d, natOfDigits [a, b]), r3)
    else none
  | _ => none

/-- Tail of the row pattern after the lazy description:
`\s+(\d+)\s+\$?(\d+\.\d{2})\s+\$?(\d+\.\d{2})$`, anchored at both
ends.  All quantifiers are forced (see the section comment), so the
tail is deterministic; `\$?` consumes a dollar sign when present
(skipping it would put `\d` on the `'$'`).  The quantity group is
returned as its raw digit string: `int()` is applied by `acceptRow`,
where its digit-count limit must be checked first. -/
def tailMatch (s : List Char) : Option (List Char × (ℕ × ℕ) × (ℕ × ℕ)) :=
  let w1 := s.takeWhile isWS
  if w1 = [] then none else
  let s1 := s.drop w1.length
  let q := s1.takeWhile isDigitCh
  if q = [] then none else
  let s2 := s1.drop q.length
  let w2 := s2.takeWhile isWS
  if w2 = [] then none else
  let s3 := s2.drop w2.length
  let s3' := match s3 with | '$' :: u => u | _ => s3
  match parseMoney s3' with
  | none => none
  | some (m1, s4) =>
    let w3 := s4.takeWhile isWS
    if w3 = [] then none else
    let s5 := s4.drop w3.length
    let s5' := match s5 with | '$' :: u => u | _ => s5
    match parseMoney s5' with
    | none => none
    | some (m2, s6) => if s6 = [] then some (q, m1, m2) else none

/-- The lazy `(.+?)` of the row pattern: grow the description one
character at a time (shortest first) until the deterministic tail
matches the remainder; the accumulated description is returned
verbatim. -/
def itemLoop : List Char → List Char → Option (List Char × List Char × (ℕ × ℕ) × (ℕ × ℕ))
  | _, [] => none
  | acc, c :: rest =>
    match tailMatch (c :: rest) with
    | some (q, m1, m2) => some (acc, q, m1, m2)
    | none => itemLoop (acc ++ [c]) rest

/-- Models `re.match(r'^(.+?)\s+(\d+)\s+\$?(\d+\.\d{2})\s+\$?(\d+\.\d{2})$', line)`:
the description needs at least one character. -/
def itemMatch : List Char → Option (List Char × List Char × (ℕ × ℕ) × (ℕ × ℕ))
  | [] => none
  | c :: rest => itemLoop [c] rest

/-- Body of the row loop: strip the line (an empty stripped line cannot
match the pattern, so the `continue` for blank lines is subsumed) and
match the row pattern.  On a match, `int(group(2))` raises `ValueError`
when the quantity group exceeds the CPython 3.11+ digit limit;
otherwise `quantity * unit_price` converts the int to a double, raising
`OverflowError` at `2 ^ 1024` (the model converts before parsing the
money doubles, observationally the same since `float()` on the money
groups never raises); the row is kept only if
`abs(expected_total - total) < 0.01` holds on the binary64 values.  A
kept row can have no infinite money double (those differ from any
finite product by infinity, and from an infinite product by NaN, both
failing the `<`), so the exact decimal fields stored in the item
determine the stored doubles. -/
def acceptRow (l : List Char) : Except PyErr (Option LineItem) :=
  match itemMatch (pyStrip l) with
  | none => Except.ok none
  | some (d, qd, m1, m2) =>
    if intMaxStrDigits < qd.length then Except.error PyErr.valueError
    else
      match intToFp (natOfDigits qd) with
      | Except.error e => Except.error e
      | Except.ok qf =>
        if fpTolOk qf m1 m2 then
          Except.ok (some ⟨pyStrip d, natOfDigits qd, moneyQ m1, moneyQ m2⟩)
        else Except.ok none

/-- The row loop of `extract_line_items`, in table order; an exception
in a row aborts the loop (the items gathered so far are lost with the
call frame). -/
def rowsLoop : List (List Char) → Except PyErr (List LineItem)
  | [] => Except.ok []
  | l :: rest =>
    match acceptRow l with
    | Except.error e => Except.error e
    | Except.ok none => rowsLoop rest
    | Except.ok (some it) =>
      match rowsLoop rest with
      | Except.error e => Except.error e
      | Except.ok its => Except.ok (it :: its)

/-- Function `extract_line_items` (extract_fields_v3.py lines 146-206). -/
def extract_line_items (text : List Char) : Except PyErr (List LineItem) :=
  rowsLoop (tableLines text)

/-! ## `extract_receipt_fields_v3` (extract_fields_v3.py lines 51-143)

The fallible steps, in evaluation order: `float(amount_str)` on the
comma-stripped total group raises `ValueError` when the group holds no
digit; then `extract_line_items` can raise on a matched row (see
`acceptRow`). -/

def extract_receipt_fields_v3 (text : List Char) : Except PyErr Record :=
  let t := normalize_ocr_errors text
  let rn := searchReceipt t
  let dt := searchDate t
  let nm := (searchName t).map pyStrip
  let em := firstGoodEmail (findEmails t)
  match searchTotalGroup t with
  | some g =>
    match pyFloatDec (stripCommas g) with
    | some amt =>
      match extract_line_items t with
      | Except.ok its =>
        Except.ok ⟨rn, dt, nm, em, its, some amt, (searchPayment t).map pyStrip, true⟩
      | Except.error e => Except.error e
    | none => Except.error PyErr.valueError
  | none =>
    match extract_line_items t with
    | Except.ok its =>
      Except.ok ⟨rn, dt, nm, em, its, none, (searchPayment t).map pyStrip, true⟩
    | Except.error e => Except.error e

/-! ## `validate_extraction` (extract_fields_v3.py lines 209-254)

The three warnings are modelled as an inductive type carrying the data
interpolated into the Python warning strings. -/

inductive Warn
  | sumMismatch (itemsSum total : ℚ)
  | badEmail (email : List Char)
  | badYear (year : ℕ)
deriving DecidableEq

/-- Models `sum(item['total'] for item in data['items'])`. -/
def itemsSum (items : List LineItem) : ℚ :=
  (items.map LineItem.total).sum

/-- Models `re.search(r'(\d{4})', date)` anchored at the head: four
consecutive digits. -/
def year4At : List Char → Option ℕ
  | a :: b :: c :: d :: _ =>
    if isDigitCh a ∧ isDigitCh b ∧ isDigitCh c ∧ isDigitCh d then
      some (natOfDigits [a, b, c, d])
    else none
  | _ => none

/-- Function `validate_extraction`: the three independent checks, in source
order.  Python truthiness gates each check: a `None` or empty-string
field, a `None` or `0.0` total, or an empty items list skips its
check. -/
def validate_extraction (r : Record) : List Warn :=
  let w1 : List Warn :=
    match r.total_amount with
    | some tot =>
      if r.items ≠ [] ∧ tot ≠ 0 then
        if |itemsSum r.items - tot| > 1 / 100 then [Warn.sumMismatch (itemsSum r.items) tot]
        else []
      else []
    | none => []
  let w2 : List Warn :=
    match r.bill_to_email with
    | some e =>
      if e ≠ [] then
        if '@' ∈ e ∧ '.' ∈ e then [] else [Warn.badEmail e]
      else []
    | none => []
  let w3 : List Warn :=
    match r.date with
    | some d =>
      if d ≠ [] then
        match scanOpt year4At d with
        | some y => if 2020 ≤ y ∧ y ≤ 2100 then [] else [Warn.badYear y]
        | none => []
      else []
    | none => []
  w1 ++ w2 ++ w3

/-! ## `calculate_confidence_score` (extract_fields_v3.py lines 257-283) -/

/-- Python truthiness of an optional string field. -/
def truthyS : Option (List Char) → Bool
  | none => false
  | some s => decide (s ≠ [])

/-- Python truthiness of the optional numeric total (`0.0` is falsy). -/
def truthyQ : Option ℚ → Bool
  | none => false
  | some x => decide (x ≠ 0)

/-- Function `calculate_confidence_score`: weighted presence sum, an item bonus
`min(len(items) * 2.5, 10)` added only when the list is nonempty, and a
final clamp `min(score, 100)`.  The `2.5` multiplier makes the result a
rational, not an integer. -/
def calculate_confidence_score (r : Record) : ℚ :=
  let s : ℚ :=
    (if truthyS r.receipt_number then 20 else 0) +
    (if truthyS r.date then 20 else 0) +
    (if truthyS r.bill_to_name then 15 else 0) +
    (if truthyS r.bill_to_email then 15 else 0) +
    (if truthyQ r.total_amount then 20 else 0) +
    (if truthyS r.payment_method then 10 else 0)
  let s2 := if r.items ≠ [] then s + min ((r.items.length : ℚ) * (5 / 2)) 10 else s
  min s2 100

/-- Modelled from the words of the specification (claim C3): the score
is `min(S + min(len(items) * 2.5, 10), 100)` where `S` is the weighted
presence sum, with the bonus term added unconditionally. -/
def claimConfidence (r : Record) : ℚ :=
  let s : ℚ :=
    (if truthyS r.receipt_number then 20 else 0) +
    (if truthyS r.date then 20 else 0) +
    (if truthyS r.bill_to_name then 15 else 0) +
    (if truthyS r.bill_to_email then 15 else 0) +
    (if truthyQ r.total_amount then 20 else 0) +
    (if truthyS r.payment_method then 10 else 0)
  min (s + min ((r.items.length : ℚ) * (5 / 2)) 10) 100

/-! ## `detect_invoice_format` (detect_format.py lines 3-73) -/

/-- Classifier output. -/
structure FormatMatch where
  name : List Char
  confidence : ℚ
  indicators : List (List Char)
  supported : Bool
deriving DecidableEq

/-- A sequence of literal words separated by `\s+`, compared
case-insensitively, anchored at the head. -/
def seqAt : List (List Char) → List Char → Bool
  | [], _ => true
  | [wd], s => isPreCI wd s
  | wd :: rest, s =>
    if isPreCI wd s then
      let r := s.drop wd.length
      let w := r.takeWhile isWS
      if w = [] then false else seqAt rest (r.drop w.length)
    else false

/-- Two literals separated by `\s*` (zero or more), case-insensitive,
anchored at the head. -/
def twoLitStar (first second : List Char) (s : List Char) : Bool :=
  isPreCI first s && isPreCI second ((s.drop first.length).dropWhile isWS)

/-- Template A pattern `Receipt\s*#\d+`. -/
def patA1 (t : List Char) : Bool :=
  anyPos (fun s => (receiptAt s).isSome) t

/-- Template A pattern: the written-month date (IGNORECASE). -/
def patA2 (t : List Char) : Bool :=
  anyPos (fun s => (dateAt true s).isSome) t

/-- Template A pattern `Total\s+Amount:`. -/
def patA3 (t : List Char) : Bool :=
  anyPos (seqAt [totalLit, amountColonLit]) t

/-- Template A pattern `Payment\s+Method:`. -/
def patA4 (t : List Char) : Bool :=
  anyPos (seqAt [paymentLit, methodColonLit]) t

/-- Template A pattern `Item\s+Description\s+Quantity`. -/
def patA5 (t : List Char) : Bool :=
  anyPos (seqAt ["Item".toList, "Description".toList, headerQtyLit]) t

/-- Template B pattern `RECEIPT\s*#`. -/
def patB1 (t : List Char) : Bool :=
  anyPos (fun s =>
    isPreCI receiptLit s &&
      match (s.drop receiptLit.length).dropWhile isWS with
      | '#' :: _ => true
      | _ => false) t

/-- Template B pattern `RECEIPT\s+DATE`. -/
def patB2 (t : List Char) : Bool :=
  anyPos (seqAt [receiptLit, "DATE".toList]) t

/-- Template B pattern `\d{2}/\d{2}/\d{4}`. -/
def patB3 (t : List Char) : Bool :=
  anyPos (fun s =>
    match s with
    | a :: b :: '/' :: c :: d :: '/' :: e :: f :: g :: h :: _ =>
      isDigitCh a && isDigitCh b && isDigitCh c && isDigitCh d &&
        isDigitCh e && isDigitCh f && isDigitCh g && isDigitCh h
    | _ => false) t

/-- Template B pattern `BILL\s*TO`. -/
def patB4 (t : List Char) : Bool :=
  anyPos (twoLitStar billLit "TO".toList) t

/-- Template B pattern `SHIP\s*TO`. -/
def patB5 (t : List Char) : Bool :=
  anyPos (twoLitStar "SHIP".toList "TO".toList) t

/-- Template B pattern `QTY\s+DESCRIPTION`. -/
def patB6 (t : List Char) : Bool :=
  anyPos (seqAt ["QTY".toList, "DESCRIPTION".toList]) t

/-- Template B pattern `UNIT\s+PRICE`. -/
def patB7 (t : List Char) : Bool :=
  anyPos (seqAt ["UNIT".toList, "PRICE".toList]) t

/-- Template B pattern `East\s+Repair`. -/
def patB8 (t : List Char) : Bool :=
  anyPos (seqAt ["East".toList, "Repair".toList]) t

/-- Template A confidence: `+= 20` per matched pattern. -/
def confA (t : List Char) : ℚ :=
  (if patA1 t then 20 else 0) + (if patA2 t then 20 else 0) +
    (if patA3 t then 20 else 0) + (if patA4 t then 20 else 0) +
    (if patA5 t then 20 else 0)

/-- Template A indicator labels, in evaluation order. -/
def indA (t : List Char) : List (List Char) :=
  (if patA1 t then ["Receipt # format".toList] else []) ++
    (if patA2 t then ["Written month format".toList] else []) ++
    (if patA3 t then ["Total Amount: label".toList] else []) ++
    (if patA4 t then ["Payment Method: label".toList] else []) ++
    (if patA5 t then ["Standard table header".toList] else [])

/-- Template B confidence: `+= 12.5` per matched pattern. -/
def confB (t : List Char) : ℚ :=
  (if patB1 t then 25 / 2 else 0) + (if patB2 t then 25 / 2 else 0) +
    (if patB3 t then 25 / 2 else 0) + (if patB4 t then 25 / 2 else 0) +
    (if patB5 t then 25 / 2 else 0) + (if patB6 t then 25 / 2 else 0) +
    (if patB7 t then 25 / 2 else 0) + (if patB8 t then 25 / 2 else 0)

/-- Template B indicator labels, in evaluation order. -/
def indB (t : List Char) : List (List Char) :=
  (if patB1 t then ["RECEIPT # (uppercase)".toList] else []) ++
    (if patB2 t then ["RECEIPT DATE label".toList] else []) ++
    (if patB3 t then ["Date format DD/MM/YYYY".toList] else []) ++
    (if patB4 t then ["BILL TO (uppercase)".toList] else []) ++
    (if patB5 t then ["SHIP TO label".toList] else []) ++
    (if patB6 t then ["QTY DESCRIPTION header".toList] else []) ++
    (if patB7 t then ["UNIT PRICE column".toList] else []) ++
    (if patB8 t then ["East Repair Inc.".toList] else [])

/-- The synthetic unknown/unsupported result (`formats['unknown']`). -/
def unknownFormat : FormatMatch :=
  ⟨"Unknown Format".toList, 0, [], false⟩

/-- Function `detect_invoice_format`: Python's `max` over the dict items returns
the first entry of maximal confidence (declaration order `template_a`,
`template_b`, `unknown`), so Template B wins only strictly and the
zero-confidence `unknown` entry never wins; a winner below 30 is
replaced by the unknown result. -/
def detect_invoice_format (t : List Char) : FormatMatch :=
  let A : FormatMatch := ⟨"Retail Receipt (Template A)".toList, confA t, indA t, true⟩
  let B : FormatMatch := ⟨"Professional Invoice (Template B)".toList, confB t, indB t, false⟩
  let best := if confA t < confB t then B else A
  if best.confidence < 30 then unknownFormat else best

/-- Proof-infrastructure relation (not part of the source): `b` is `a`
with an optional `O → 0` substitution applied.  `fixPrices l` is related
to `l` pointwise by `relO`, and `relO` preserves the character classes
inspected by `tryMatch`, which carries the no-match property of a
substituted line over to its price-fixed form. -/
def relO (a b : Char) : Prop := b = a ∨ (a = 'O' ∧ b = '0')

/-! ## Theorems -/

/-- The email warning appears in the validator output exactly when the
email field is present (truthy) and misses an `'@'` or a `'.'`. -/
theorem badEmail_mem_validate (r : Record) (e : List Char) :
    Warn.badEmail e ∈ validate_extraction r ↔
      (r.bill_to_email = some e ∧ e ≠ [] ∧ ¬ ('@' ∈ e ∧ '.' ∈ e)) := by
  obtain ⟨rn, dt, nm, em, its, ta, pm, oc⟩ := r
  simp only [validate_extraction, List.mem_append]
  rcases ta with _ | tot <;> rcases em with _ | e' <;> rcases dt with _ | d
  all_goals repeat' split
  all_goals try simp_all
  all_goals try (rintro rfl; simp_all)
  all_goals
    constructor
    · rintro rfl
      simp_all
    · rintro ⟨rfl, -, hbad⟩
      simp_all

/-- C3.  For every record, `calculate_confidence_score` returns exactly
`min(S + min(len(items) * 2.5, 10), 100)` with `S` the weighted
truthy-presence sum of the claim. -/
theorem claim_C3 (r : Record) : calculate_confidence_score r = claimConfidence r := by
  simp only [calculate_confidence_score, claimConfidence]
  by_cases h : r.items = []
  · simp [h]
  · simp [h]

/-- C6 fails as stated: a record whose only content is a single line
item scores `2.5`, which is not an integer (the `0 ≤ score ≤ 100` part
of the claim does hold, see `claim_C6`). -/
theorem claim_C6_counterexample :
    calculate_confidence_score ⟨none, none, none, none, [⟨[], 1, 1, 1⟩], none, none, true⟩ = 5 / 2 ∧
      ¬ ∃ n : ℤ,
        calculate_confidence_score ⟨none, none, none, none, [⟨[], 1, 1, 1⟩], none, none, true⟩ = (n : ℚ) := by
  have h52 :
      calculate_confidence_score ⟨none, none, none, none, [⟨[], 1, 1, 1⟩], none, none, true⟩ = 5 / 2 := by
    simp [calculate_confidence_score, truthyS, truthyQ, min_def]
    norm_num
  refine ⟨h52, ?_⟩
  rintro ⟨n, hn⟩
  rw [h52] at hn
  have h2 : (5 : ℚ) = (n : ℚ) * 2 := by
    field_simp at hn
    linarith
  have h3 : (5 : ℤ) = n * 2 := by exact_mod_cast h2
  omega

/-- C6, amended: the score is a rational (not always an integer)
satisfying `0 ≤ score ≤ 100` for every record. -/
theorem claim_C6 (r : Record) :
    0 ≤ calculate_confidence_score r ∧ calculate_confidence_score r ≤ 100 := by
  simp only [calculate_confidence_score]
  refine ⟨le_min ?_ (by norm_num), min_le_right _ _⟩
  have hmin : (0 : ℚ) ≤ min ((r.items.length : ℚ) * (5 / 2)) 10 :=
    le_min (by positivity) (by norm_num)
  split_ifs <;> linarith

/-- C4.  When every template scores below 30, `detect_invoice_format`
returns the synthetic unknown result (name `Unknown Format`,
`supported = false`, no indicators). -/
theorem claim_C4 (t : List Char) (hA : confA t < 30) (hB : confB t < 30) :
    detect_invoice_format t = unknownFormat := by
  simp only [detect_invoice_format]
  by_cases h : confA t < confB t <;> simp [h, hA, hB]

/-- Witness for C4 at the empty text. -/
theorem claim_C4_witness :
    confA [] < 30 ∧ confB [] < 30 ∧ detect_invoice_format [] = unknownFormat := by
  have hA : confA [] < 30 := by
    have h1 : patA1 [] = false := by decide
    have h2 : patA2 [] = false := by decide
    have h3 : patA3 [] = false := by decide
    have h4 : patA4 [] = false := by decide
    have h5 : patA5 [] = false := by decide
    simp [confA, h1, h2, h3, h4, h5]
  have hB : confB [] < 30 := by
    have h1 : patB1 [] = false := by decide
    have h2 : patB2 [] = false := by decide
    have h3 : patB3 [] = false := by decide
    have h4 : patB4 [] = false := by decide
    have h5 : patB5 [] = false := by decide
    have h6 : patB6 [] = false := by decide
    have h7 : patB7 [] = false := by decide
    have h8 : patB8 [] = false := by decide
    simp [confB, h1, h2, h3, h4, h5, h6, h7, h8]
  exact ⟨hA, hB, claim_C4 [] hA hB⟩

/-- C8.  The classifier result either has confidence at least 30 or is
exactly the unknown result with confidence 0, no indicators, and
`supported = false`; confidences strictly between 0 and 30 are never
returned. -/
theorem claim_C8 (t : List Char) :
    30 ≤ (detect_invoice_format t).confidence ∨
      ((detect_invoice_format t).confidence = 0 ∧
        (detect_invoice_format t).supported = false ∧
        (detect_invoice_format t).indicators = [] ∧
        (detect_invoice_format t).name = "Unknown Format".toList) := by
  simp only [detect_invoice_format]
  by_cases h : confA t < confB t
  · by_cases h30 : confB t < 30
    · right
      simp [h, h30, unknownFormat]
    · left
      simp [h, h30]
      exact le_of_not_lt h30
  · by_cases h30 : confA t < 30
    · right
      simp [h, h30, unknownFormat]
    · left
      simp [h, h30]
      exact le_of_not_lt h30

/-- C5 fails as stated: the email `a@b` contains an `'@'` (so it does
not lack both characters), yet the validator emits the email warning,
because the code warns when either character is missing. -/
theorem claim_C5_counterexample :
    Warn.badEmail ("a@b".toList) ∈
        validate_extraction ⟨none, none, none, some ("a@b".toList), [], none, none, true⟩ ∧
      '@' ∈ ("a@b".toList) := by
  constructor
  · decide
  · decide

/-- C5, amended: for a record whose email field is present (truthy),
the validator emits the email warning iff the email lacks an `'@'` or
lacks a `'.'` (not: lacks both). -/
theorem claim_C5 (r : Record) (e : List Char) (he : r.bill_to_email = some e)
    (hne : e ≠ []) :
    Warn.badEmail e ∈ validate_extraction r ↔ ¬ ('@' ∈ e ∧ '.' ∈ e) := by
  rw [badEmail_mem_validate]
  simp [he, hne]

/-- Fueled binary-splitting power agrees with `2 ^ n` whenever the fuel
covers the exponent. -/
theorem pw2F_eq : ∀ f n, n ≤ f → pw2F f n = 2 ^ n := by
  intro f
  induction f with
  | zero =>
    intro n h
    obtain rfl : n = 0 := Nat.le_zero.mp h
    rfl
  | succ f ih =>
    intro n h
    simp only [pw2F]
    by_cases h0 : n = 0
    · subst h0
      simp
    · rw [if_neg h0, ih (n / 2) (by omega)]
      by_cases hp : n % 2 = 0
      · rw [if_pos hp, ← Nat.pow_add]
        congr 1
        omega
      · rw [if_neg hp]
        have h2 : 2 * (2 ^ (n / 2) * 2 ^ (n / 2)) = 2 ^ (1 + (n / 2 + n / 2)) := by
          rw [Nat.pow_add, Nat.pow_add]
        rw [h2]
        congr 1
        omega

/-- Function `pw2` computes `2 ^ n`. -/
theorem pw2_eq (n : ℕ) : pw2 n = 2 ^ n :=
  pw2F_eq n n le_rfl

/-- Greedy invariant of the binary-search logarithm: starting from an
exponent `k` with `2 ^ k ≤ n < 2 ^ (k + 2 ^ j)`, descending through the
bits below `j` lands on the floor logarithm. -/
theorem log2B_spec : ∀ j n k, 2 ^ k ≤ n → n < 2 ^ (k + 2 ^ j) →
    2 ^ log2B j n k ≤ n ∧ n < 2 ^ (log2B j n k + 1) := by
  intro j
  induction j with
  | zero =>
    intro n k h1 h2
    simp only [log2B]
    exact ⟨h1, by simpa using h2⟩
  | succ j ih =>
    intro n k h1 h2
    simp only [log2B, pw2_eq]
    split_ifs with hc
    · refine ih n (k + 2 ^ j) hc ?_
      have he : k + 2 ^ j + 2 ^ j = k + 2 ^ (j + 1) := by
        rw [pow_succ]
        ring
      rw [he]
      exact h2
    · exact ih n k h1 (Nat.not_le.mp hc)

/-- Function `floorLog2` agrees with `Nat.log2` on positive arguments
below `2 ^ 16384`. -/
theorem floorLog2_eq (n : ℕ) (h1 : 1 ≤ n) (h2 : n < 2 ^ 2 ^ 14) :
    floorLog2 n = Nat.log2 n := by
  have hs := log2B_spec 14 n 0 (by simpa using h1) (by simpa using h2)
  have h3 : Nat.log 2 n = log2B 14 n 0 := Nat.log_eq_of_pow_le_of_lt_pow hs.1 hs.2
  simp only [floorLog2]
  rw [Nat.log2_eq_log_two]
  exact h3.symm

/-- Evaluation helper: a row accepted by `acceptRow`. -/
theorem acceptRow_eval_some (l d qd : List Char) (m1 m2 : ℕ × ℕ) (qf : Fp64)
    (h : itemMatch (pyStrip l) = some (d, qd, m1, m2))
    (hlen : ¬ intMaxStrDigits < qd.length)
    (hqf : intToFp (natOfDigits qd) = Except.ok qf)
    (hfp : fpTolOk qf m1 m2 = true) :
    acceptRow l = Except.ok (some ⟨pyStrip d, natOfDigits qd, moneyQ m1, moneyQ m2⟩) := by
  simp only [acceptRow, h]
  rw [if_neg hlen]
  simp only [hqf]
  rw [if_pos hfp]

/-- Evaluation helper: a matched row rejected by the tolerance test. -/
theorem acceptRow_eval_none (l d qd : List Char) (m1 m2 : ℕ × ℕ) (qf : Fp64)
    (h : itemMatch (pyStrip l) = some (d, qd, m1, m2))
    (hlen : ¬ intMaxStrDigits < qd.length)
    (hqf : intToFp (natOfDigits qd) = Except.ok qf)
    (hfp : fpTolOk qf m1 m2 = false) :
    acceptRow l = Except.ok none := by
  simp only [acceptRow, h]
  rw [if_neg hlen]
  simp only [hqf]
  have hne : ¬ fpTolOk qf m1 m2 = true := by simp [hfp]
  rw [if_neg hne]

/-- Evaluation helper: a matched row whose quantity conversion
raises. -/
theorem acceptRow_eval_err (l d qd : List Char) (m1 m2 : ℕ × ℕ) (e : PyErr)
    (h : itemMatch (pyStrip l) = some (d, qd, m1, m2))
    (hlen : ¬ intMaxStrDigits < qd.length)
    (hqf : intToFp (natOfDigits qd) = Except.error e) :
    acceptRow l = Except.error e := by
  simp only [acceptRow, h]
  rw [if_neg hlen]
  simp only [hqf]

set_option maxRecDepth 8000 in
/-- C1 fails as stated: the row `Widget 1 1.00 1.01` matches the row
shape and satisfies `|quantity * unit_price - total| ≤ 0.01` on the
exact decimal values (the difference is exactly one cent), yet
`extract_line_items` discards it: the code tests the strict `< 0.01`,
and the binary64 value of `abs(1 * 1.00 - 1.01)` even exceeds the
double `0.01`. -/
theorem claim_C1_counterexample :
    itemMatch (pyStrip ("Widget 1 1.00 1.01".toList)) =
        some ("Widget".toList, "1".toList, (1, 0), (1, 1)) ∧
      |(1 : ℚ) * moneyQ (1, 0) - moneyQ (1, 1)| ≤ 1 / 100 ∧
      extract_line_items
          ("Item Description Quantity\nWidget 1 1.00 1.01\nTotal Amount: $1.01".toList) =
        Except.ok [] := by
  refine ⟨by decide, ?_, ?_⟩
  · have hv : (1 : ℚ) * moneyQ (1, 0) - moneyQ (1, 1) = -(1 / 100) := by
      norm_num [moneyQ]
    rw [hv, abs_neg, abs_of_nonneg (by norm_num : (0 : ℚ) ≤ 1 / 100)]
  · have ht : tableLines
        ("Item Description Quantity\nWidget 1 1.00 1.01\nTotal Amount: $1.01".toList) =
        ["Widget 1 1.00 1.01".toList] := by decide
    have hm : itemMatch (pyStrip ("Widget 1 1.00 1.01".toList)) =
        some ("Widget".toList, "1".toList, (1, 0), (1, 1)) := by decide
    have hneg : acceptRow ("Widget 1 1.00 1.01".toList) = Except.ok none :=
      acceptRow_eval_none _ _ _ _ _ (Fp64.finite 4503599627370496 (-52)) hm (by decide)
        (by decide) (by decide)
    have hx : extract_line_items
        ("Item Description Quantity\nWidget 1 1.00 1.01\nTotal Amount: $1.01".toList) =
        rowsLoop (tableLines
          ("Item Description Quantity\nWidget 1 1.00 1.01\nTotal Amount: $1.01".toList)) := rfl
    rw [hx, ht]
    show (match acceptRow ("Widget 1 1.00 1.01".toList) with
          | Except.error e => Except.error e
          | Except.ok none => rowsLoop []
          | Except.ok (some it) =>
            match rowsLoop [] with
            | Except.error e => Except.error e
            | Except.ok its => Except.ok (it :: its)) = Except.ok []
    rw [hneg]
    rfl

set_option maxRecDepth 8000 in
/-- C1, amended: a matched row whose quantity group survives the
`int()` digit limit and the `int`-to-`float` conversion is accepted iff
the binary64 test `abs(quantity * unit_price - total) < 0.01` holds;
the one-cent decimal boundary falls on either side depending on
rounding: `A 1 0.02 0.03` is accepted (the double difference
`abs(1 * 0.02 - 0.03)` is just below the double `0.01`) while
`Widget 1 1.00 1.01` is discarded (just above). -/
theorem claim_C1 :
    (∀ (l d qd : List Char) (m1 m2 : ℕ × ℕ) (qf : Fp64),
        itemMatch (pyStrip l) = some (d, qd, m1, m2) →
        ¬ intMaxStrDigits < qd.length →
        intToFp (natOfDigits qd) = Except.ok qf →
        (acceptRow l =
            Except.ok (some ⟨pyStrip d, natOfDigits qd, moneyQ m1, moneyQ m2⟩) ↔
          fpTolOk qf m1 m2 = true)) ∧
      acceptRow ("A 1 0.02 0.03".toList) =
        Except.ok (some ⟨pyStrip ("A".toList), 1, moneyQ (0, 2), moneyQ (0, 3)⟩) ∧
      acceptRow ("Widget 1 1.00 1.01".toList) = Except.ok none := by
  refine ⟨?_, ?_, ?_⟩
  · intro l d qd m1 m2 qf h hlen hqf
    simp only [acceptRow, h]
    rw [if_neg hlen]
    simp only [hqf]
    split_ifs with hc
    · exact iff_of_true rfl hc
    · exact iff_of_false (by simp) hc
  · exact acceptRow_eval_some ("A 1 0.02 0.03".toList) ("A".toList) ("1".toList) (0, 2) (0, 3)
      (Fp64.finite 4503599627370496 (-52)) (by decide) (by decide) (by decide) (by decide)
  · exact acceptRow_eval_none ("Widget 1 1.00 1.01".toList) ("Widget".toList) ("1".toList)
      (1, 0) (1, 1) (Fp64.finite 4503599627370496 (-52)) (by decide) (by decide) (by decide)
      (by decide)

set_option maxRecDepth 8000 in
/-- Witness for C1 at a concrete accepted row whose quantity converts
to the double 2.0. -/
theorem claim_C1_witness :
    itemMatch (pyStrip ("Widget 2 $3.00 $6.00".toList)) =
        some ("Widget".toList, "2".toList, (3, 0), (6, 0)) ∧
      ¬ intMaxStrDigits < ("2".toList).length ∧
      intToFp (natOfDigits ("2".toList)) = Except.ok (Fp64.finite 4503599627370496 (-51)) ∧
      (acceptRow ("Widget 2 $3.00 $6.00".toList) =
          Except.ok (some ⟨pyStrip ("Widget".toList), natOfDigits ("2".toList),
            moneyQ (3, 0), moneyQ (6, 0)⟩) ↔
        fpTolOk (Fp64.finite 4503599627370496 (-51)) (3, 0) (6, 0) = true) :=
  ⟨by decide, by decide, by decide,
    claim_C1.1 _ _ _ _ _ _ (by decide) (by decide) (by decide)⟩

/-- A character is dropped by `dropWhile isWS` only up to the first
non-whitespace character. -/
theorem dropWhile_head_not (l : List Char) (c : Char) (xs : List Char)
    (h : l.dropWhile isWS = c :: xs) : isWS c = false := by
  induction l with
  | nil => simp at h
  | cons a t ih =>
    by_cases ha : isWS a
    · rw [List.dropWhile_cons, if_pos ha] at h
      exact ih h
    · rw [List.dropWhile_cons, if_neg ha] at h
      obtain ⟨rfl, -⟩ := List.cons.inj h
      simpa using ha

/-- Dropping trailing whitespace yields a prefix. -/
theorem dropTrailWS_isPre (y : List Char) : dropTrailWS y <+: y := by
  have hs : y.reverse.dropWhile isWS <:+ y.reverse := List.dropWhile_suffix _
  have : (dropTrailWS y).reverse <:+ y.reverse := by
    simpa [dropTrailWS] using hs
  exact List.reverse_suffix.mp this

/-- The head of a stripped string is not whitespace. -/
theorem pyStrip_head_not (l : List Char) (c : Char) (xs : List Char)
    (h : pyStrip l = c :: xs) : isWS c = false := by
  obtain ⟨t, ht⟩ := dropTrailWS_isPre (l.dropWhile isWS)
  rw [pyStrip] at h
  rw [h] at ht
  exact dropWhile_head_not l c (xs ++ t) (by simpa using ht.symm)

/-- Stripping a string whose head is not whitespace keeps it
nonempty. -/
theorem pyStrip_cons_ne_nil (c : Char) (xs : List Char) (hc : isWS c = false) :
    pyStrip (c :: xs) ≠ [] := by
  intro hnil
  rw [pyStrip, List.dropWhile_cons, if_neg (by simp [hc])] at hnil
  rw [dropTrailWS, List.reverse_eq_nil_iff, List.dropWhile_eq_nil_iff] at hnil
  have := hnil c (by simp)
  simp [hc] at this

/-- The description returned by the row matcher extends the
accumulator. -/
theorem itemLoop_desc (s : List Char) :
    ∀ (acc d qd : List Char) (m1 m2 : ℕ × ℕ),
      itemLoop acc s = some (d, qd, m1, m2) → ∃ ext, d = acc ++ ext := by
  induction s with
  | nil => intro acc d qd m1 m2 h; simp [itemLoop] at h
  | cons c rest ih =>
    intro acc d qd m1 m2 h
    simp only [itemLoop] at h
    rcases ht : tailMatch (c :: rest) with _ | ⟨qd', m1', m2'⟩
    · rw [ht] at h
      obtain ⟨ext, hext⟩ := ih (acc ++ [c]) d qd m1 m2 h
      exact ⟨c :: ext, by simp [hext]⟩
    · rw [ht] at h
      obtain ⟨rfl, -⟩ := Prod.mk.inj (Option.some.inj h)
      exact ⟨[], by simp⟩

/-- A line item in a successful row-loop output comes from some
accepted line. -/
theorem mem_rowsLoop : ∀ (ls : List (List Char)) (its : List LineItem) (it : LineItem),
    rowsLoop ls = Except.ok its → it ∈ its →
      ∃ l ∈ ls, acceptRow l = Except.ok (some it) := by
  intro ls
  induction ls with
  | nil =>
    intro its it h hmem
    simp only [rowsLoop] at h
    obtain rfl := Except.ok.inj h
    simp at hmem
  | cons l rest ih =>
    intro its it h hmem
    simp only [rowsLoop] at h
    split at h
    · exact Except.noConfusion h
    · obtain ⟨l', hl', hacc⟩ := ih its it h hmem
      exact ⟨l', List.mem_cons_of_mem _ hl', hacc⟩
    · rename_i x heq
      split at h
      · exact Except.noConfusion h
      · rename_i its' heq2
        obtain rfl := Except.ok.inj h
        rcases List.mem_cons.mp hmem with rfl | hmem2
        · exact ⟨l, List.mem_cons_self _ _, heq⟩
        · obtain ⟨l', hl', hacc⟩ := ih its' it heq2 hmem2
          exact ⟨l', List.mem_cons_of_mem _ hl', hacc⟩

/-- A money group value is nonnegative. -/
theorem moneyQ_nonneg (p : ℕ × ℕ) : 0 ≤ moneyQ p := by
  simp only [moneyQ]
  positivity

/-- C10.  Every line item in a successfully returned item list has a
nonempty (trimmed) description, a nonnegative quantity, and
nonnegative prices. -/
theorem claim_C10 (text : List Char) (items : List LineItem) (it : LineItem)
    (hok : extract_line_items text = Except.ok items) (h : it ∈ items) :
    it.description ≠ [] ∧ 0 ≤ it.quantity ∧ 0 ≤ it.unit_price ∧ 0 ≤ it.total := by
  simp only [extract_line_items] at hok
  obtain ⟨l, -, hacc⟩ := mem_rowsLoop _ _ _ hok h
  rcases hm : itemMatch (pyStrip l) with _ | ⟨d, qd, m1, m2⟩
  · simp [acceptRow, hm] at hacc
  · simp only [acceptRow, hm] at hacc
    by_cases hlen : intMaxStrDigits < qd.length
    · rw [if_pos hlen] at hacc
      exact Except.noConfusion hacc
    · rw [if_neg hlen] at hacc
      rcases hqf : intToFp (natOfDigits qd) with e | qf
      · simp only [hqf] at hacc
        exact Except.noConfusion hacc
      · simp only [hqf] at hacc
        by_cases hc : fpTolOk qf m1 m2 = true
        · rw [if_pos hc] at hacc
          obtain rfl := Option.some.inj (Except.ok.inj hacc)
          refine ⟨?_, Nat.zero_le _, moneyQ_nonneg _, moneyQ_nonneg _⟩
          rcases hs : pyStrip l with _ | ⟨c, rest⟩
          · rw [hs] at hm
            simp [itemMatch] at hm
          · rw [hs] at hm
            simp only [itemMatch] at hm
            obtain ⟨ext, hd⟩ := itemLoop_desc rest [c] d qd m1 m2 hm
            have hcws : isWS c = false := pyStrip_head_not l c rest hs
            simp only [hd, List.singleton_append]
            exact pyStrip_cons_ne_nil c ext hcws
        · rw [if_neg hc] at hacc
          simp at hacc

set_option maxRecDepth 8000 in
/-- Witness for C10 at a concrete accepted item. -/
theorem claim_C10_witness :
    extract_line_items
        ("Item Description Quantity\nWidget 2 $3.00 $6.00\nTotal Amount: $6.00".toList) =
      Except.ok [⟨pyStrip ("Widget".toList), 2, moneyQ (3, 0), moneyQ (6, 0)⟩] ∧
      pyStrip ("Widget".toList) ≠ [] ∧
      (0 : ℚ) ≤ moneyQ (3, 0) ∧ (0 : ℚ) ≤ moneyQ (6, 0) := by
  have ht : tableLines
      ("Item Description Quantity\nWidget 2 $3.00 $6.00\nTotal Amount: $6.00".toList) =
      ["Widget 2 $3.00 $6.00".toList] := by decide
  have hm : itemMatch (pyStrip ("Widget 2 $3.00 $6.00".toList)) =
      some ("Widget".toList, "2".toList, (3, 0), (6, 0)) := by decide
  have hp : acceptRow ("Widget 2 $3.00 $6.00".toList) =
      Except.ok (some ⟨pyStrip ("Widget".toList), 2, moneyQ (3, 0), moneyQ (6, 0)⟩) :=
    acceptRow_eval_some _ _ _ _ _ (Fp64.finite 4503599627370496 (-51)) hm (by decide)
      (by decide) (by decide)
  have hok : extract_line_items
      ("Item Description Quantity\nWidget 2 $3.00 $6.00\nTotal Amount: $6.00".toList) =
      Except.ok [⟨pyStrip ("Widget".toList), 2, moneyQ (3, 0), moneyQ (6, 0)⟩] := by
    have hx : extract_line_items
        ("Item Description Quantity\nWidget 2 $3.00 $6.00\nTotal Amount: $6.00".toList) =
        rowsLoop (tableLines
          ("Item Description Quantity\nWidget 2 $3.00 $6.00\nTotal Amount: $6.00".toList)) := rfl
    rw [hx, ht]
    show (match acceptRow ("Widget 2 $3.00 $6.00".toList) with
          | Except.error e => Except.error e
          | Except.ok none => rowsLoop []
          | Except.ok (some it) =>
            match rowsLoop [] with
            | Except.error e => Except.error e
            | Except.ok its => Except.ok (it :: its)) = _
    rw [hp]
    rfl
  have hconc := claim_C10 _ _ _ hok (List.mem_singleton.mpr rfl)
  exact ⟨hok, hconc.1, hconc.2.2.1, hconc.2.2.2⟩

/-- Witness for C5 at a concrete record whose email has an `'@'` but no
`'.'`. -/
theorem claim_C5_witness :
    (Warn.badEmail ("a@b".toList) ∈
        validate_extraction ⟨none, none, none, some ("a@b".toList), [], none, none, true⟩ ↔
      ¬ ('@' ∈ ("a@b".toList) ∧ '.' ∈ ("a@b".toList))) :=
  claim_C5 ⟨none, none, none, some ("a@b".toList), [], none, none, true⟩ ("a@b".toList) rfl
    (by decide)

set_option maxRecDepth 8000 in
/-- C2 fails as stated, in three ways: on `Total Amount: ,` the
total-amount pattern matches with group `","`, stripping commas leaves
the empty string and `float('')` raises `ValueError`; and a table row
whose quantity group has 310 digits makes `extract_line_items` raise
`OverflowError` when `quantity * unit_price` converts the quantity to
a float (a row with more than 4300 quantity digits would already raise
`ValueError` in `int()`).  Neither function is total. -/
theorem claim_C2_counterexample :
    extract_receipt_fields_v3 ("Total Amount: ,".toList) = Except.error PyErr.valueError ∧
      extract_line_items ("Item Description Quantity\nA ".toList ++
          List.replicate 310 '9' ++ " 1.00 1.00\nTotal Amount: $1".toList) =
        Except.error PyErr.overflowError := by
  refine ⟨rfl, ?_⟩
  have ht : tableLines ("Item Description Quantity\nA ".toList ++
      List.replicate 310 '9' ++ " 1.00 1.00\nTotal Amount: $1".toList) =
      ["A ".toList ++ List.replicate 310 '9' ++ " 1.00 1.00".toList] := by decide
  have hm : itemMatch (pyStrip ("A ".toList ++ List.replicate 310 '9' ++
      " 1.00 1.00".toList)) =
      some ("A".toList, List.replicate 310 '9', (1, 0), (1, 0)) := by decide
  have herr : acceptRow ("A ".toList ++ List.replicate 310 '9' ++ " 1.00 1.00".toList) =
      Except.error PyErr.overflowError :=
    acceptRow_eval_err _ _ _ _ _ _ hm (by decide) (by decide)
  have hx : extract_line_items ("Item Description Quantity\nA ".toList ++
      List.replicate 310 '9' ++ " 1.00 1.00\nTotal Amount: $1".toList) =
      rowsLoop (tableLines ("Item Description Quantity\nA ".toList ++
        List.replicate 310 '9' ++ " 1.00 1.00\nTotal Amount: $1".toList)) := rfl
  rw [hx, ht]
  show (match acceptRow ("A ".toList ++ List.replicate 310 '9' ++ " 1.00 1.00".toList) with
        | Except.error e => Except.error e
        | Except.ok none => rowsLoop []
        | Except.ok (some it) =>
          match rowsLoop [] with
          | Except.error e => Except.error e
          | Except.ok its => Except.ok (it :: its)) = Except.error PyErr.overflowError
  rw [herr]

/-- C2, amended: `normalize_ocr_errors`, `detect_invoice_format`,
`validate_extraction` and `calculate_confidence_score` are total;
`acceptRow` (the loop body of `extract_line_items`) raises exactly on
a matched row whose quantity group is over 4300 digits (`ValueError`
from `int()`) or whose quantity rounds to `2 ^ 1024` or more
(`OverflowError` converting it to a float); and
`extract_receipt_fields_v3` raises exactly when the total-amount
pattern matches with a numeral containing no digit (`ValueError` from
`float`, checked first) or `extract_line_items` raises on the
corrected text. -/
theorem claim_C2 :
    (∀ t, ∃ s, normalize_ocr_errors t = s) ∧
      (∀ t, ∃ fm, detect_invoice_format t = fm) ∧
      (∀ r, ∃ ws, validate_extraction r = ws) ∧
      (∀ r, ∃ q, calculate_confidence_score r = q) ∧
      (∀ l e, acceptRow l = Except.error e ↔
        ∃ d qd m1 m2, itemMatch (pyStrip l) = some (d, qd, m1, m2) ∧
          ((intMaxStrDigits < qd.length ∧ e = PyErr.valueError) ∨
            (qd.length ≤ intMaxStrDigits ∧
              intToFp (natOfDigits qd) = Except.error e))) ∧
      (∀ t e, extract_receipt_fields_v3 t = Except.error e ↔
        ((∃ g, searchTotalGroup (normalize_ocr_errors t) = some g ∧
            pyFloatDec (stripCommas g) = none) ∧ e = PyErr.valueError) ∨
          ((∀ g, searchTotalGroup (normalize_ocr_errors t) = some g →
              pyFloatDec (stripCommas g) ≠ none) ∧
            extract_line_items (normalize_ocr_errors t) = Except.error e)) := by
  refine ⟨fun t => ⟨_, rfl⟩, fun t => ⟨_, rfl⟩, fun r => ⟨_, rfl⟩, fun r => ⟨_, rfl⟩,
    ?_, ?_⟩
  · intro l e
    rcases hm : itemMatch (pyStrip l) with _ | ⟨d, qd, m1, m2⟩
    · constructor
      · intro h
        simp only [acceptRow, hm] at h
        exact Except.noConfusion h
      · rintro ⟨d', qd', m1', m2', hm', -⟩
        exact Option.noConfusion hm'
    · simp only [acceptRow, hm]
      by_cases hlen : intMaxStrDigits < qd.length
      · rw [if_pos hlen]
        constructor
        · intro h
          exact ⟨d, qd, m1, m2, rfl, Or.inl ⟨hlen, (Except.error.inj h).symm⟩⟩
        · rintro ⟨d', qd', m1', m2', hm', hcase⟩
          simp only [Option.some.injEq, Prod.mk.injEq] at hm'
          obtain ⟨rfl, rfl, rfl, rfl⟩ := hm'
          rcases hcase with ⟨-, rfl⟩ | ⟨hle, -⟩
          · rfl
          · exact absurd hlen (Nat.not_lt.mpr hle)
      · rw [if_neg hlen]
        rcases hqf : intToFp (natOfDigits qd) with e' | qf
        · simp only [hqf]
          constructor
          · intro h
            obtain rfl := Except.error.inj h
            exact ⟨d, qd, m1, m2, rfl, Or.inr ⟨Nat.not_lt.mp hlen, hqf⟩⟩
          · rintro ⟨d', qd', m1', m2', hm', hcase⟩
            simp only [Option.some.injEq, Prod.mk.injEq] at hm'
            obtain ⟨rfl, rfl, rfl, rfl⟩ := hm'
            rcases hcase with ⟨hlt, -⟩ | ⟨-, herr⟩
            · exact absurd hlt hlen
            · rw [hqf] at herr
              obtain rfl := Except.error.inj herr
              rfl
        · simp only [hqf]
          constructor
          · intro h
            split_ifs at h
          · rintro ⟨d', qd', m1', m2', hm', hcase⟩
            exfalso
            simp only [Option.some.injEq, Prod.mk.injEq] at hm'
            obtain ⟨rfl, rfl, rfl, rfl⟩ := hm'
            rcases hcase with ⟨hlt, -⟩ | ⟨-, herr⟩
            · exact absurd hlt hlen
            · rw [hqf] at herr
              exact Except.noConfusion herr
  · intro t e
    constructor
    · intro he
      rcases hg : searchTotalGroup (normalize_ocr_errors t) with _ | g
      · simp only [extract_receipt_fields_v3, hg] at he
        rcases hi : extract_line_items (normalize_ocr_errors t) with e' | its
        · simp only [hi] at he
          obtain rfl := Except.error.inj he
          refine Or.inr ⟨?_, rfl⟩
          intro g0 hg0
          exact Option.noConfusion hg0
        · simp only [hi] at he
          exact Except.noConfusion he
      · simp only [extract_receipt_fields_v3, hg] at he
        rcases hf : pyFloatDec (stripCommas g) with _ | amt
        · simp only [hf] at he
          obtain rfl := Except.error.inj he
          exact Or.inl ⟨⟨g, rfl, hf⟩, rfl⟩
        · simp only [hf] at he
          rcases hi : extract_line_items (normalize_ocr_errors t) with e' | its
          · simp only [hi] at he
            obtain rfl := Except.error.inj he
            refine Or.inr ⟨?_, rfl⟩
            intro g0 hg0
            obtain rfl := Option.some.inj hg0
            rw [hf]
            simp
          · simp only [hi] at he
            exact Except.noConfusion he
    · rintro (⟨⟨g, hg, hf⟩, rfl⟩ | ⟨hguard, hi⟩)
      · simp only [extract_receipt_fields_v3, hg, hf]
      · rcases hg : searchTotalGroup (normalize_ocr_errors t) with _ | g
        · simp only [extract_receipt_fields_v3, hg, hi]
        · rcases hf : pyFloatDec (stripCommas g) with _ | amt
          · exact absurd hf (hguard g hg)
          · simp only [extract_receipt_fields_v3, hg, hf, hi]

/-- Any anchored match of the email pattern contains an `'@'` and a
`'.'`. -/
theorem emailAt_mem (cs m post : List Char) (h : emailAt cs = some (m, post)) :
    '@' ∈ m ∧ '.' ∈ m := by
  simp only [emailAt] at h
  split_ifs at h with hl
  split at h
  · split at h
    · split_ifs at h with hpre
      obtain ⟨rfl, -⟩ := Prod.mk.inj (Option.some.inj h)
      constructor
      · simp
      · simp
    · exact absurd h (by simp)
  · exact absurd h (by simp)

/-- Every email returned by the findall loop contains an `'@'` and a
`'.'` (for every fuel value). -/
theorem findEmailsF_mem (f : ℕ) :
    ∀ cs m, m ∈ findEmailsF f cs → '@' ∈ m ∧ '.' ∈ m := by
  induction f with
  | zero => intro cs m h; simp [findEmailsF] at h
  | succ f ih =>
    intro cs m h
    rcases cs with _ | ⟨c, rest⟩
    · simp [findEmailsF] at h
    · simp only [findEmailsF] at h
      rcases he : emailAt (c :: rest) with _ | ⟨m', post⟩
      · rw [he] at h
        exact ih rest m h
      · rw [he] at h
        rcases List.mem_cons.mp h with rfl | hmem
        · exact emailAt_mem _ _ _ he
        · exact ih post m hmem

/-- The selected email is one of the findall matches. -/
theorem firstGoodEmail_mem : ∀ (ms : List (List Char)) (m : List Char),
    firstGoodEmail ms = some m → m ∈ ms := by
  intro ms
  induction ms with
  | nil => intro m h; simp [firstGoodEmail] at h
  | cons x rest ih =>
    intro m h
    simp only [firstGoodEmail] at h
    split_ifs at h with hx
    · exact List.mem_cons_of_mem _ (ih m h)
    · obtain rfl := Option.some.inj h
      exact List.mem_cons_self _ _

/-- C9.  Every email set by the extractor contains an `'@'` and a `'.'`,
so the validator's malformed-email warning is never emitted for a
record coming straight from the extractor. -/
theorem claim_C9 (t : List Char) (r : Record)
    (h : extract_receipt_fields_v3 t = Except.ok r) :
    (∀ e, r.bill_to_email = some e → '@' ∈ e ∧ '.' ∈ e) ∧
      (∀ e, Warn.badEmail e ∉ validate_extraction r) := by
  have hem : r.bill_to_email = firstGoodEmail (findEmails (normalize_ocr_errors t)) := by
    simp only [extract_receipt_fields_v3] at h
    split at h
    · split at h
      · split at h
        · obtain rfl := Except.ok.inj h
          rfl
        · exact Except.noConfusion h
      · exact Except.noConfusion h
    · split at h
      · obtain rfl := Except.ok.inj h
        rfl
      · exact Except.noConfusion h
  have hmain : ∀ e, r.bill_to_email = some e → '@' ∈ e ∧ '.' ∈ e := by
    intro e he
    rw [hem] at he
    have hm := firstGoodEmail_mem _ _ he
    simp only [findEmails] at hm
    exact findEmailsF_mem _ _ _ hm
  refine ⟨hmain, ?_⟩
  intro e hmem
  rw [badEmail_mem_validate] at hmem
  obtain ⟨he, -, hbad⟩ := hmem
  exact hbad (hmain e he)

/-- Witness for C9 at a text holding one well-formed email. -/
theorem claim_C9_witness :
    extract_receipt_fields_v3 ("Contact: jane.doe@example.com".toList) =
        Except.ok ⟨none, none, none, some ("jane.doe@example.com".toList), [], none, none, true⟩ ∧
      ('@' ∈ ("jane.doe@example.com".toList) ∧ '.' ∈ ("jane.doe@example.com".toList)) ∧
      (∀ e, Warn.badEmail e ∉ validate_extraction
        ⟨none, none, none, some ("jane.doe@example.com".toList), [], none, none, true⟩) := by
  have h : extract_receipt_fields_v3 ("Contact: jane.doe@example.com".toList) =
      Except.ok ⟨none, none, none, some ("jane.doe@example.com".toList), [], none, none, true⟩ := rfl
  have hc := claim_C9 _ _ h
  exact ⟨h, hc.1 _ rfl, hc.2⟩

/-! ### Idempotence of the normalizer (claim C7)

The substitution pattern `\s+([JlI])\s+\$` cannot re-trigger on the
output of `subLineF`: the replacement text `' 1 $'` contains no
confusable letter and its `'$'` is guarded by the digit `'1'`.  The
lemmas below establish that every suffix of the output fails
`tryMatch`, that this property survives the `O → 0` price fix, and that
such a string is a fixed point of the substitution. -/

/-- A successful `skipWSDollar` consumes at least the dollar sign. -/
theorem skipWSDollar_len : ∀ u v, skipWSDollar u = some v → v.length + 1 ≤ u.length := by
  intro u
  induction u with
  | nil => intro v h; simp [skipWSDollar] at h
  | cons c rest ih =>
    intro v h
    simp only [skipWSDollar] at h
    split_ifs at h with h1 h2
    · have := ih v h
      simp only [List.length_cons]
      omega
    · obtain rfl := Option.some.inj h
      simp

/-- A successful `afterConf` consumes at least two characters. -/
theorem afterConf_len (t v : List Char) (h : afterConf t = some v) :
    v.length + 2 ≤ t.length := by
  rcases t with _ | ⟨c, rest⟩
  · simp [afterConf] at h
  · simp only [afterConf] at h
    split_ifs at h
    have := skipWSDollar_len rest v h
    simp only [List.length_cons]
    omega

/-- A successful `afterWS` consumes at least three characters. -/
theorem afterWS_len : ∀ u v, afterWS u = some v → v.length + 3 ≤ u.length := by
  intro u
  induction u with
  | nil => intro v h; simp [afterWS] at h
  | cons c rest ih =>
    intro v h
    simp only [afterWS] at h
    split_ifs at h with h1 h2
    · have := ih v h
      simp only [List.length_cons]
      omega
    · have := afterConf_len rest v h
      simp only [List.length_cons]
      omega

/-- A successful `tryMatch` consumes at least four characters. -/
theorem tryMatch_len (cs v : List Char) (h : tryMatch cs = some v) :
    v.length + 4 ≤ cs.length := by
  rcases cs with _ | ⟨c, rest⟩
  · simp [tryMatch] at h
  · simp only [tryMatch] at h
    split_ifs at h
    have := afterWS_len rest v h
    simp only [List.length_cons]
    omega

/-- The remainder returned by `skipWSDollar` is a suffix. -/
theorem skipWSDollar_suffix : ∀ u v, skipWSDollar u = some v → v <:+ u := by
  intro u
  induction u with
  | nil => intro v h; simp [skipWSDollar] at h
  | cons c rest ih =>
    intro v h
    simp only [skipWSDollar] at h
    split_ifs at h with h1 h2
    · exact (ih v h).trans (List.suffix_cons c rest)
    · obtain rfl := Option.some.inj h
      exact List.suffix_cons c rest

/-- The remainder returned by `afterConf` is a suffix. -/
theorem afterConf_suffix (t v : List Char) (h : afterConf t = some v) : v <:+ t := by
  rcases t with _ | ⟨c, rest⟩
  · simp [afterConf] at h
  · simp only [afterConf] at h
    split_ifs at h
    exact (skipWSDollar_suffix rest v h).trans (List.suffix_cons c rest)

/-- The remainder returned by `afterWS` is a suffix. -/
theorem afterWS_suffix : ∀ u v, afterWS u = some v → v <:+ u := by
  intro u
  induction u with
  | nil => intro v h; simp [afterWS] at h
  | cons c rest ih =>
    intro v h
    simp only [afterWS] at h
    split_ifs at h with h1 h2
    · exact (ih v h).trans (List.suffix_cons c rest)
    · exact (afterConf_suffix rest v h).trans (List.suffix_cons c rest)

/-- The remainder returned by `tryMatch` is a suffix. -/
theorem tryMatch_suffix (cs v : List Char) (h : tryMatch cs = some v) : v <:+ cs := by
  rcases cs with _ | ⟨c, rest⟩
  · simp [tryMatch] at h
  · simp only [tryMatch] at h
    split_ifs at h
    exact (afterWS_suffix rest v h).trans (List.suffix_cons c rest)

/-- No match starts at the digit `'1'`. -/
theorem tm_one (xs : List Char) : tryMatch ('1' :: xs) = none := by
  simp [tryMatch, show isWS '1' = false from rfl]

/-- No match starts at a `'$'`. -/
theorem tm_dollar (xs : List Char) : tryMatch ('$' :: xs) = none := by
  simp [tryMatch, show isWS '$' = false from rfl]

/-- No match starts at a space followed by `'1'`. -/
theorem tm_sp_one (xs : List Char) : tryMatch (' ' :: '1' :: xs) = none := by
  simp [tryMatch, afterWS, show isWS ' ' = true from rfl,
    show isWS '1' = false from rfl, show isConf '1' = false from rfl]

/-- No match starts at a space followed by `'$'`. -/
theorem tm_sp_dollar (xs : List Char) : tryMatch (' ' :: '$' :: xs) = none := by
  simp [tryMatch, afterWS, show isWS ' ' = true from rfl,
    show isWS '$' = false from rfl, show isConf '$' = false from rfl]

/-- The substitution preserves failure of `skipWSDollar`. -/
theorem skipWSDollar_subLineF : ∀ f u, skipWSDollar u = none →
    skipWSDollar (subLineF f u) = none := by
  intro f
  induction f with
  | zero => intro u h; simpa [subLineF] using h
  | succ f ih =>
    intro u h
    rcases u with _ | ⟨c, v⟩
    · simp [subLineF, skipWSDollar]
    · simp only [subLineF]
      rcases ht : tryMatch (c :: v) with _ | r
      · simp only [skipWSDollar] at h ⊢
        split_ifs at h with h1 h2
        · rw [if_pos h1]
          exact ih v h
        · rw [if_neg h1, if_neg h2]
      · simp only [skipWSDollar, show isWS ' ' = true from rfl, if_pos]
        simp [show isWS '1' = false from rfl, show ('1' : Char) ≠ '$' by decide]

/-- The substitution preserves failure of `afterConf`. -/
theorem afterConf_subLineF : ∀ f t, afterConf t = none →
    afterConf (subLineF f t) = none := by
  intro f
  induction f with
  | zero => intro t h; simpa [subLineF] using h
  | succ f ih =>
    intro t h
    rcases t with _ | ⟨e, u⟩
    · simp [subLineF, afterConf]
    · simp only [subLineF]
      rcases ht : tryMatch (e :: u) with _ | r
      · simp only [afterConf] at h ⊢
        split_ifs at h with h1
        · rw [if_pos h1]
          exact skipWSDollar_subLineF f u h
        · rw [if_neg h1]
      · simp only [afterConf, show isWS ' ' = true from rfl, if_pos]
        simp [skipWSDollar, show isWS '1' = false from rfl,
          show ('1' : Char) ≠ '$' by decide]

/-- The substitution preserves failure of `afterWS`. -/
theorem afterWS_subLineF : ∀ f cs, afterWS cs = none →
    afterWS (subLineF f cs) = none := by
  intro f
  induction f with
  | zero => intro cs h; simpa [subLineF] using h
  | succ f ih =>
    intro cs h
    rcases cs with _ | ⟨d, t⟩
    · simp [subLineF, afterWS]
    · simp only [afterWS] at h
      by_cases h1 : isWS d = true
      · rw [if_pos h1] at h
        have htm : tryMatch (d :: t) = none := by
          simp only [tryMatch, if_pos h1, h]
        simp only [subLineF, htm, afterWS, if_pos h1]
        exact ih t h
      · rw [if_neg h1] at h
        have htm : tryMatch (d :: t) = none := by
          simp only [tryMatch, if_neg h1]
        simp only [subLineF, htm, afterWS, if_neg h1]
        by_cases h2 : isConf d = true
        · rw [if_pos h2] at h ⊢
          exact afterConf_subLineF f t h
        · rw [if_neg h2]

/-- Every suffix of the substituted line fails `tryMatch`: the
substitution never re-triggers on its own output. -/
theorem subLineF_nomatch : ∀ f cs, cs.length ≤ f →
    ∀ s, s <:+ subLineF f cs → tryMatch s = none := by
  intro f
  induction f with
  | zero =>
    intro cs hf s hs
    interval_cases hcs : cs.length
    · have : cs = [] := List.length_eq_zero.mp hcs
      subst this
      simp only [subLineF] at hs
      obtain rfl := List.suffix_nil.mp hs
      rfl
  | succ f ih =>
    intro cs hf s hs
    rcases cs with _ | ⟨c, rest⟩
    · simp only [subLineF] at hs
      obtain rfl := List.suffix_nil.mp hs
      rfl
    · simp only [subLineF] at hs
      rcases ht : tryMatch (c :: rest) with _ | r
      · rw [ht] at hs
        rcases List.suffix_cons_iff.mp hs with rfl | hsuf
        · by_cases h1 : isWS c = true
          · have h2 : afterWS rest = none := by
              simp only [tryMatch, if_pos h1] at ht
              exact ht
            simp only [tryMatch, if_pos h1]
            exact afterWS_subLineF f rest h2
          · simp [tryMatch, if_neg h1]
        · exact ih rest (by simpa using Nat.le_of_succ_le_succ hf) s hsuf
      · rw [ht] at hs
        have hr : r.length ≤ f := by
          have := tryMatch_len _ _ ht
          simp only [List.length_cons] at this hf
          omega
        rcases List.suffix_cons_iff.mp hs with rfl | hs1
        · exact tm_sp_one _
        rcases List.suffix_cons_iff.mp hs1 with rfl | hs2
        · exact tm_one _
        rcases List.suffix_cons_iff.mp hs2 with rfl | hs3
        · exact tm_sp_dollar _
        rcases List.suffix_cons_iff.mp hs3 with rfl | hs4
        · exact tm_dollar _
        · exact ih r hr s hs4

/-- A string in which no suffix matches is a fixed point of the
substitution, for every fuel value. -/
theorem nomatch_fix : ∀ f cs, (∀ s, s <:+ cs → tryMatch s = none) →
    subLineF f cs = cs := by
  intro f
  induction f with
  | zero => intro cs _; rfl
  | succ f ih =>
    intro cs h
    rcases cs with _ | ⟨c, rest⟩
    · rfl
    · have h0 : tryMatch (c :: rest) = none := h _ (List.suffix_refl _)
      simp only [subLineF, h0]
      rw [ih rest (fun s hs => h s (hs.trans (List.suffix_cons c rest)))]

/-- Relation `relO` preserves the character classes inspected by the
substitution pattern. -/
theorem relO_classes (a b : Char) (h : relO a b) :
    isWS b = isWS a ∧ isConf b = isConf a ∧ (b = '$' ↔ a = '$') := by
  rcases h with rfl | ⟨rfl, rfl⟩
  · exact ⟨rfl, rfl, Iff.rfl⟩
  · exact ⟨by decide, by decide, by decide⟩

/-- Relation `relO` transfer of `skipWSDollar` failure. -/
theorem skipWSDollar_rel : ∀ u u', List.Forall₂ relO u u' →
    skipWSDollar u = none → skipWSDollar u' = none := by
  intro u u' h
  induction h with
  | nil => intro _; rfl
  | @cons a b as bs hab htail ih =>
    intro h0
    obtain ⟨hws, hconf, hd⟩ := relO_classes a b hab
    simp only [skipWSDollar] at h0 ⊢
    by_cases hw : isWS a = true
    · rw [if_pos hw] at h0
      rw [if_pos (hws.trans hw)]
      exact ih h0
    · rw [if_neg hw] at h0
      rw [if_neg (fun hh => hw (hws ▸ hh))]
      by_cases ha : a = '$'
      · rw [if_pos ha] at h0
        exact absurd h0 (by simp)
      · rw [if_neg ha] at h0
        rw [if_neg (fun hb => ha (hd.mp hb))]

/-- Relation `relO` transfer of `afterConf` failure. -/
theorem afterConf_rel (t t' : List Char) (h : List.Forall₂ relO t t')
    (h0 : afterConf t = none) : afterConf t' = none := by
  rcases h with _ | ⟨hab, htail⟩
  · rfl
  · rename_i a b as bs
    obtain ⟨hws, -, -⟩ := relO_classes a b hab
    simp only [afterConf] at h0 ⊢
    by_cases hw : isWS a = true
    · rw [if_pos hw] at h0
      rw [if_pos (hws.trans hw)]
      exact skipWSDollar_rel as bs htail h0
    · rw [if_neg (fun hh => hw (hws ▸ hh))]

/-- Relation `relO` transfer of `afterWS` failure. -/
theorem afterWS_rel : ∀ u u', List.Forall₂ relO u u' →
    afterWS u = none → afterWS u' = none := by
  intro u u' h
  induction h with
  | nil => intro _; rfl
  | @cons a b as bs hab htail ih =>
    intro h0
    obtain ⟨hws, hconf, -⟩ := relO_classes a b hab
    simp only [afterWS] at h0 ⊢
    by_cases hw : isWS a = true
    · rw [if_pos hw] at h0
      rw [if_pos (hws.trans hw)]
      exact ih h0
    · rw [if_neg hw] at h0
      rw [if_neg (fun hh => hw (hws ▸ hh))]
      by_cases hc : isConf a = true
      · rw [if_pos hc] at h0
        rw [if_pos (hconf.trans hc)]
        exact afterConf_rel as bs htail h0
      · rw [if_neg hc] at h0
        rw [if_neg (fun hh => hc (hconf ▸ hh))]

/-- Relation `relO` transfer of `tryMatch` failure. -/
theorem tryMatch_rel (u u' : List Char) (h : List.Forall₂ relO u u')
    (h0 : tryMatch u = none) : tryMatch u' = none := by
  rcases h with _ | ⟨hab, htail⟩
  · rfl
  · rename_i a b as bs
    obtain ⟨hws, -, -⟩ := relO_classes a b hab
    simp only [tryMatch] at h0 ⊢
    by_cases hw : isWS a = true
    · rw [if_pos hw] at h0
      rw [if_pos (hws.trans hw)]
      exact afterWS_rel as bs htail h0
    · rw [if_neg (fun hh => hw (hws ▸ hh))]

/-- Relation `relO` transfer of the all-suffixes no-match property. -/
theorem nomatch_rel : ∀ x y, List.Forall₂ relO x y →
    (∀ s, s <:+ x → tryMatch s = none) →
    ∀ t, t <:+ y → tryMatch t = none := by
  intro x y h
  induction h with
  | nil =>
    intro _ t ht
    obtain rfl := List.suffix_nil.mp ht
    rfl
  | @cons a b as bs hab htail ih =>
    intro hx t ht
    rcases List.suffix_cons_iff.mp ht with rfl | hsuf
    · exact tryMatch_rel (a :: as) (b :: bs) (List.Forall₂.cons hab htail)
        (hx _ (List.suffix_refl _))
    · exact ih (fun s hs => hx s (hs.trans (List.suffix_cons a as))) t hsuf

/-- A list is `relO`-related to its `O → 0` image. -/
theorem rel_map_subO : ∀ l : List Char, List.Forall₂ relO l (l.map subO) := by
  intro l
  induction l with
  | nil => simp
  | cons c rest ih =>
    refine List.Forall₂.cons ?_ ih
    by_cases hc : c = 'O'
    · subst hc
      exact Or.inr ⟨rfl, by simp [subO]⟩
    · exact Or.inl (by simp [subO, hc])

/-- A line is `relO`-related to its price-fixed form. -/
theorem fixPrices_rel : ∀ l : List Char, List.Forall₂ relO l (fixPrices l) := by
  intro l
  induction l with
  | nil => simp [fixPrices]
  | cons c rest ih =>
    simp only [fixPrices]
    by_cases hc : c = '$'
    · subst hc
      rw [if_pos rfl]
      exact List.Forall₂.cons (Or.inl rfl) (rel_map_subO rest)
    · rw [if_neg hc]
      exact List.Forall₂.cons (Or.inl rfl) ih

/-- The character substitution `O → 0` is idempotent. -/
theorem subO_subO (c : Char) : subO (subO c) = subO c := by
  by_cases hc : c = 'O'
  · subst hc
    simp [subO]
  · simp [subO, hc]

/-- The price fix is idempotent. -/
theorem fixPrices_idem : ∀ l : List Char, fixPrices (fixPrices l) = fixPrices l := by
  intro l
  induction l with
  | nil => rfl
  | cons c rest ih =>
    by_cases hc : c = '$'
    · subst hc
      rw [show fixPrices ('$' :: rest) = '$' :: rest.map subO from by simp [fixPrices]]
      rw [show fixPrices ('$' :: rest.map subO) = '$' :: (rest.map subO).map subO from by
        simp [fixPrices]]
      rw [List.map_map]
      exact congrArg (List.cons '$') (List.map_congr_left (fun x _ => subO_subO x))
    · rw [show fixPrices (c :: rest) = c :: fixPrices rest from by simp [fixPrices, hc]]
      rw [show fixPrices (c :: fixPrices rest) = c :: fixPrices (fixPrices rest) from by
        simp [fixPrices, hc]]
      rw [ih]

/-- The substitution introduces no newline. -/
theorem subLineF_no_nl : ∀ f cs, '\n' ∉ cs → '\n' ∉ subLineF f cs := by
  intro f
  induction f with
  | zero => intro cs h; simpa [subLineF] using h
  | succ f ih =>
    intro cs h
    rcases cs with _ | ⟨c, rest⟩
    · simp [subLineF]
    · simp only [subLineF]
      rcases ht : tryMatch (c :: rest) with _ | r
      · intro hmem
        rcases List.mem_cons.mp hmem with rfl | hmem2
        · exact h (List.mem_cons_self _ _)
        · exact ih rest (fun hr => h (List.mem_cons_of_mem _ hr)) hmem2
      · intro hmem
        have hr : '\n' ∉ r := fun hin => h ((tryMatch_suffix _ _ ht).subset hin)
        rcases List.mem_cons.mp hmem with h1 | hmem1
        · exact absurd h1 (by decide)
        rcases List.mem_cons.mp hmem1 with h1 | hmem2
        · exact absurd h1 (by decide)
        rcases List.mem_cons.mp hmem2 with h1 | hmem3
        · exact absurd h1 (by decide)
        rcases List.mem_cons.mp hmem3 with h1 | hmem4
        · exact absurd h1 (by decide)
        · exact ih r hr hmem4

/-- The price fix introduces no newline. -/
theorem fixPrices_no_nl : ∀ l : List Char, '\n' ∉ l → '\n' ∉ fixPrices l := by
  intro l
  induction l with
  | nil => intro h; simp [fixPrices]
  | cons c rest ih =>
    intro h
    simp only [fixPrices]
    by_cases hc : c = '$'
    · subst hc
      intro hmem
      rcases List.mem_cons.mp hmem with h1 | hmem2
      · exact absurd h1 (by decide)
      · obtain ⟨x, hx, hsub⟩ := List.mem_map.mp hmem2
        by_cases hxo : x = 'O'
        · subst hxo
          rw [show subO 'O' = '0' from rfl] at hsub
          exact absurd hsub (by decide)
        · rw [show subO x = x from by simp [subO, hxo]] at hsub
          subst hsub
          exact h (List.mem_cons_of_mem _ hx)
    · rw [if_neg hc]
      intro hmem
      rcases List.mem_cons.mp hmem with rfl | hmem2
      · exact h (List.mem_cons_self _ _)
      · exact ih (fun hr => h (List.mem_cons_of_mem _ hr)) hmem2

/-- One pass of `normLine` is idempotent. -/
theorem normLine_idem (l : List Char) : normLine (normLine l) = normLine l := by
  by_cases hc : ('$' ∈ l ∧ ¬ isPre totalLit l = true)
  · have hinner : normLine l = fixPrices (subLineF l.length l) := by
      rw [normLine, if_pos hc]
    rw [hinner, normLine]
    by_cases hc2 : ('$' ∈ fixPrices (subLineF l.length l) ∧
        ¬ isPre totalLit (fixPrices (subLineF l.length l)) = true)
    · rw [if_pos hc2]
      have h1 : ∀ s, s <:+ subLineF l.length l → tryMatch s = none :=
        subLineF_nomatch l.length l le_rfl
      have h2 : ∀ s, s <:+ fixPrices (subLineF l.length l) → tryMatch s = none :=
        nomatch_rel _ _ (fixPrices_rel _) h1
      rw [nomatch_fix _ _ h2]
      exact fixPrices_idem _
    · rw [if_neg hc2]
  · have hinner : normLine l = l := by
      rw [normLine, if_neg hc]
    rw [hinner]
    exact hinner

/-- Function `normLine` introduces no newline. -/
theorem normLine_no_nl (l : List Char) (h : '\n' ∉ l) : '\n' ∉ normLine l := by
  rw [normLine]
  split_ifs with hc
  · exact fixPrices_no_nl _ (subLineF_no_nl _ _ h)
  · exact h

/-- Function `splitNl` never returns the empty list of pieces. -/
theorem splitNl_ne_nil : ∀ l : List Char, splitNl l ≠ [] := by
  intro l
  induction l with
  | nil => simp [splitNl]
  | cons c rest ih =>
    simp only [splitNl]
    split_ifs
    · simp
    · rcases h : splitNl rest with _ | ⟨p, ps⟩
      · simp
      · simp

/-- Pieces produced by `splitNl` contain no newline. -/
theorem splitNl_no_nl : ∀ (l : List Char) (p : List Char), p ∈ splitNl l → '\n' ∉ p := by
  intro l
  induction l with
  | nil =>
    intro p hp
    obtain rfl := List.mem_singleton.mp hp
    simp
  | cons c rest ih =>
    intro p hp
    simp only [splitNl] at hp
    split_ifs at hp with hcnl
    · rcases List.mem_cons.mp hp with rfl | hp2
      · simp
      · exact ih p hp2
    · rcases h : splitNl rest with _ | ⟨p0, ps⟩
      · exact absurd h (splitNl_ne_nil rest)
      · rw [h] at hp
        rcases List.mem_cons.mp hp with rfl | hp2
        · intro hmem
          rcases List.mem_cons.mp hmem with h1 | h1
          · exact hcnl h1.symm
          · exact ih p0 (h ▸ List.mem_cons_self _ _) h1
        · exact ih p (h ▸ List.mem_cons_of_mem _ hp2)

/-- Splitting after appending a clean piece and a newline peels the
piece off. -/
theorem splitNl_append_nl : ∀ (p rest : List Char), '\n' ∉ p →
    splitNl (p ++ '\n' :: rest) = p :: splitNl rest := by
  intro p
  induction p with
  | nil =>
    intro rest _
    simp [splitNl]
  | cons a p' ih =>
    intro rest h
    have ha : ¬ a = '\n' := fun haa => h (haa ▸ List.mem_cons_self _ _)
    simp only [List.cons_append, splitNl, if_neg ha]
    rw [show splitNl (p'.append ('\n' :: rest)) = p' :: splitNl rest from
      ih rest (fun hin => h (List.mem_cons_of_mem _ hin))]

/-- Splitting a clean piece returns it whole. -/
theorem splitNl_clean : ∀ p : List Char, '\n' ∉ p → splitNl p = [p] := by
  intro p
  induction p with
  | nil => intro _; rfl
  | cons a p' ih =>
    intro h
    have ha : ¬ a = '\n' := fun haa => h (haa ▸ List.mem_cons_self _ _)
    simp only [splitNl, if_neg ha]
    rw [ih (fun hin => h (List.mem_cons_of_mem _ hin))]

/-- Function `splitNl` is a left inverse of `joinNl` on nonempty lists of clean
pieces. -/
theorem splitNl_joinNl : ∀ ps : List (List Char), ps ≠ [] →
    (∀ p ∈ ps, '\n' ∉ p) → splitNl (joinNl ps) = ps := by
  intro ps
  induction ps with
  | nil => intro h; exact absurd rfl h
  | cons p qs ih =>
    intro _ hclean
    rcases qs with _ | ⟨q, rest⟩
    · exact splitNl_clean p (hclean p (List.mem_cons_self _ _))
    · show splitNl (p ++ '\n' :: joinNl (q :: rest)) = _
      rw [splitNl_append_nl p _ (hclean p (List.mem_cons_self _ _))]
      rw [ih (by simp) (fun x hx => hclean x (List.mem_cons_of_mem _ hx))]

/-- C7.  `normalize_ocr_errors` is idempotent: no candidate-line
substitution re-triggers on already-corrected output. -/
theorem claim_C7 (t : List Char) :
    normalize_ocr_errors (normalize_ocr_errors t) = normalize_ocr_errors t := by
  show joinNl ((splitNl (joinNl ((splitNl t).map normLine))).map normLine) = _
  have hclean : ∀ p ∈ (splitNl t).map normLine, '\n' ∉ p := by
    intro p hp
    obtain ⟨q, hq, rfl⟩ := List.mem_map.mp hp
    exact normLine_no_nl q (splitNl_no_nl t q hq)
  have hne : (splitNl t).map normLine ≠ [] := by
    intro h
    exact splitNl_ne_nil t (by simpa using h)
  rw [splitNl_joinNl _ hne hclean, List.map_map]
  congr 1
  exact List.map_congr_left (fun x _ => normLine_idem x)

end InvoiceProc
